import Mathlib

/-!
# Verification of the oceanist insight engine's story-analysis code

This file gives a shallow embedding of the three analyzer scripts
(`run_oilgas_analyzer.py`, `run_fishing_analyzer.py`, `run_news_curator.py`)
and proves or refutes the frozen specification claims about them.

Modelling conventions:

* Coordinates and distances are rationals (`ℚ`); the Python floats of the
  source are exact at every concrete input used below.
* The external libraries are opaque collaborators and enter as parameters:
  `dist` stands for shapely's exact point-to-shape distance, and
  `nearest` stands for the rtree index's `idx.nearest(bounds, k)` query
  (which only ever returns previously inserted slot ids).
* Randomness (`random.sample`, `random.choice`) is an injected entropy
  source: `random.sample` is modelled by `randomSample`, a
  without-replacement selection driven by a list of entropy values, and
  `random.choice` by indexing with `entropy % length`.
* Python lookups that can raise (`list[i]`) are modelled with `Except Unit`
  where the source can actually crash, and the crash is distinguished from
  the "no result" outcome (`Option`).
-/

namespace Oceanist

/-- Axis-aligned bounding box, mirroring the `(min_x, min_y, max_x, max_y)`
tuples produced by `shape.bounds` in both analyzer scripts. -/
structure Box where
  minX : ℚ
  minY : ℚ
  maxX : ℚ
  maxY : ℚ
deriving DecidableEq

/-- The bounding-box validity test of `run_oilgas_analyzer.py` lines 67-68:
`min_x <= max_x and min_y <= max_y`. -/
def validBox (b : Box) : Bool :=
  decide (b.minX ≤ b.maxX) && decide (b.minY ≤ b.maxY)

/-- A longitude/latitude pair, mirroring `event['position']`. -/
structure Pos where
  lon : ℚ
  lat : ℚ
deriving DecidableEq

/-! ## Generic list machinery shared by the embeddings -/

section ListHelpers

variable {α : Type} {β : Type} {κ : Type} [DecidableEq κ]

/-- The function `enumFrom n l` mirrors Python's `enumerate` starting at `n`:
it pairs every element with its position. -/
def enumFrom (n : Nat) : List α → List (Nat × α)
  | [] => []
  | x :: xs => (n, x) :: enumFrom (n + 1) xs

@[simp] theorem enumFrom_nil (n : Nat) : enumFrom n ([] : List α) = [] := rfl

@[simp] theorem enumFrom_cons (n : Nat) (x : α) (xs : List α) :
    enumFrom n (x :: xs) = (n, x) :: enumFrom (n + 1) xs := rfl

theorem length_enumFrom (n : Nat) (l : List α) : (enumFrom n l).length = l.length := by
  induction l generalizing n with
  | nil => rfl
  | cons x xs ih => simp [ih]

theorem mem_enumFrom {n i : Nat} {x : α} {l : List α} :
    (i, x) ∈ enumFrom n l ↔ n ≤ i ∧ l.get? (i - n) = some x := by
  induction l generalizing n with
  | nil => simp
  | cons y ys ih =>
    simp only [enumFrom_cons, List.mem_cons, ih, Prod.mk.injEq]
    constructor
    · rintro (⟨rfl, rfl⟩ | ⟨h1, h2⟩)
      · simp
      · refine ⟨by omega, ?_⟩
        have : i - n = (i - (n + 1)) + 1 := by omega
        rw [this]
        simpa using h2
    · rintro ⟨h1, h2⟩
      rcases Nat.eq_or_lt_of_le h1 with rfl | hlt
      · left
        simp at h2
        exact ⟨rfl, h2.symm⟩
      · right
        refine ⟨hlt, ?_⟩
        have : i - n = (i - (n + 1)) + 1 := by omega
        rw [this] at h2
        simpa using h2
/-- One counting update of a Python `dict` used as a counter
(`grid[cell] = grid.get(cell, 0) + 1`, and likewise `collections.Counter`):
the association list keeps dict insertion order, increments an existing key
in place and appends a fresh key at the end. -/
def bump : List (κ × Nat) → κ → List (κ × Nat)
  | [], c => [(c, 1)]
  | (k, n) :: rest, c => if k = c then (k, n + 1) :: rest else (k, n) :: bump rest c

/-- Lookup `grid.get(c, 0)`: the count stored for key `c`, `0` when absent. -/
def countIn : List (κ × Nat) → κ → Nat
  | [], _ => 0
  | (k, n) :: rest, c => if k = c then n else countIn rest c

/-- The total of all stored counts. -/
def sumCounts (g : List (κ × Nat)) : Nat := (g.map (fun x => x.2)).sum

/-- Python's `max(grid, key=grid.get)` on a dict in iteration order, and also
`Counter.most_common(1)[0]`: both return the first entry attaining the
maximal count, keeping the earlier entry on ties. -/
def maxEntry : List (κ × Nat) → Option (κ × Nat)
  | [] => none
  | e :: rest => some (rest.foldl (fun b x => if b.2 < x.2 then x else b) e)

/-- The keys of `l` that are not in `seen`, listed in order of first
occurrence.  `newKeys [] l` is exactly the iteration (insertion) order of a
Python dict or `Counter` built by scanning `l`. -/
def newKeys (seen : List κ) : List κ → List κ
  | [] => []
  | c :: cs => if c ∈ seen then newKeys seen cs else c :: newKeys (c :: seen) cs

/-- First-encountered order of the distinct elements of `l`. -/
def firstOccurrences (l : List κ) : List κ := newKeys [] l

/-- The number of occurrences of `c` in `l`. -/
def tally (l : List κ) (c : κ) : Nat := l.countP (fun x => decide (x = c))

@[simp] theorem tally_nil (c : κ) : tally ([] : List κ) c = 0 := rfl

theorem tally_cons (y : κ) (l : List κ) (c : κ) :
    tally (y :: l) c = tally l c + (if y = c then 1 else 0) := by
  simp [tally, List.countP_cons]

@[simp] theorem bump_nil (c : κ) : bump ([] : List (κ × Nat)) c = [(c, 1)] := rfl

theorem bump_countIn (g : List (κ × Nat)) (c x : κ) :
    countIn (bump g c) x = countIn g x + (if x = c then 1 else 0) := by
  induction g with
  | nil =>
    by_cases h : c = x
    · subst h
      simp [countIn]
    · have h' : ¬ x = c := fun hx => h hx.symm
      simp [countIn, h, h']
  | cons e rest ih =>
    obtain ⟨k, n⟩ := e
    by_cases hkc : k = c
    · subst hkc
      by_cases hkx : k = x
      · subst hkx
        simp [bump, countIn]
      · have hxk : ¬ x = k := fun hx => hkx hx.symm
        simp [bump, countIn, hkx, hxk]
    · by_cases hkx : k = x
      · subst hkx
        simp [bump, hkc, countIn]
      · simp [bump, hkc, countIn, hkx, ih]

theorem bump_keys (g : List (κ × Nat)) (c : κ) :
    (bump g c).map Prod.fst =
      if c ∈ g.map Prod.fst then g.map Prod.fst else g.map Prod.fst ++ [c] := by
  induction g with
  | nil => simp
  | cons e rest ih =>
    obtain ⟨k, n⟩ := e
    by_cases hkc : k = c
    · subst hkc
      simp [bump]
    · have hck : ¬ c = k := fun h => hkc h.symm
      simp only [bump, if_neg hkc, List.map_cons, List.mem_cons]
      rw [ih]
      by_cases hc : c ∈ rest.map Prod.fst
      · simp [hc, hck]
      · simp [hc, hck]

theorem bump_sumCounts (g : List (κ × Nat)) (c : κ) :
    sumCounts (bump g c) = sumCounts g + 1 := by
  induction g with
  | nil => simp [sumCounts]
  | cons e rest ih =>
    obtain ⟨k, n⟩ := e
    by_cases hkc : k = c
    · subst hkc
      simp [bump, sumCounts]
      omega
    · simp only [bump, if_neg hkc]
      simp [sumCounts] at ih ⊢
      omega

theorem bump_pos {g : List (κ × Nat)} (hg : ∀ x ∈ g, 0 < x.2) (c : κ) :
    ∀ x ∈ bump g c, 0 < x.2 := by
  induction g with
  | nil => simp [bump]
  | cons e rest ih =>
    obtain ⟨k, n⟩ := e
    intro x hx
    by_cases hkc : k = c
    · simp only [bump, if_pos hkc, List.mem_cons] at hx
      rcases hx with rfl | hx
      · simp
      · exact hg x (List.mem_cons_of_mem _ hx)
    · simp only [bump, if_neg hkc, List.mem_cons] at hx
      rcases hx with rfl | hx
      · exact hg _ (List.mem_cons_self _ _)
      · exact ih (fun y hy => hg y (List.mem_cons_of_mem _ hy)) x hx

theorem mem_of_mem_newKeys (cs : List κ) :
    ∀ (seen : List κ) (x : κ), x ∈ newKeys seen cs → x ∈ cs := by
  induction cs with
  | nil => intro seen x hx; simp [newKeys] at hx
  | cons c rest ih =>
    intro seen x hx
    by_cases hc : c ∈ seen
    · simp only [newKeys, if_pos hc] at hx
      exact List.mem_cons_of_mem _ (ih seen x hx)
    · simp only [newKeys, if_neg hc, List.mem_cons] at hx
      rcases hx with rfl | hx
      · exact List.mem_cons_self _ _
      · exact List.mem_cons_of_mem _ (ih _ x hx)

theorem newKeys_congr (cs : List κ) :
    ∀ s1 s2 : List κ, (∀ x, x ∈ s1 ↔ x ∈ s2) → newKeys s1 cs = newKeys s2 cs := by
  induction cs with
  | nil => intro _ _ _; rfl
  | cons c rest ih =>
    intro s1 s2 hs
    by_cases hc : c ∈ s1
    · simp [newKeys, hc, (hs c).mp hc, ih s1 s2 hs]
    · have hc2 : c ∉ s2 := fun h => hc ((hs c).mpr h)
      simp only [newKeys, if_neg hc, if_neg hc2]
      refine congrArg _ (ih _ _ ?_)
      intro x
      simp [hs x]

theorem foldl_bump_countIn (cs : List κ) :
    ∀ (g : List (κ × Nat)) (x : κ),
      countIn (cs.foldl bump g) x = countIn g x + tally cs x := by
  induction cs with
  | nil => simp
  | cons c rest ih =>
    intro g x
    rw [List.foldl_cons, ih, bump_countIn, tally_cons]
    by_cases hx : x = c
    · subst hx
      simp only [if_pos rfl]
      omega
    · have hcx : ¬ c = x := fun h => hx h.symm
      simp only [if_neg hx, if_neg hcx]
      omega

theorem foldl_bump_sumCounts (cs : List κ) :
    ∀ g : List (κ × Nat), sumCounts (cs.foldl bump g) = sumCounts g + cs.length := by
  induction cs with
  | nil => simp
  | cons c rest ih =>
    intro g
    simp only [List.foldl_cons, ih, bump_sumCounts, List.length_cons]
    omega

theorem foldl_bump_keys (cs : List κ) :
    ∀ g : List (κ × Nat),
      (cs.foldl bump g).map Prod.fst = g.map Prod.fst ++ newKeys (g.map Prod.fst) cs := by
  induction cs with
  | nil => simp [newKeys]
  | cons c rest ih =>
    intro g
    simp only [List.foldl_cons, ih, bump_keys]
    by_cases hc : c ∈ g.map Prod.fst
    · simp [newKeys, hc]
    · simp only [if_neg hc, newKeys, List.append_assoc, List.singleton_append]
      refine congrArg _ (congrArg _ ?_)
      refine newKeys_congr rest _ _ ?_
      intro x
      simp [or_comm]

theorem foldl_bump_pos (cs : List κ) :
    ∀ g : List (κ × Nat), (∀ x ∈ g, 0 < x.2) → ∀ x ∈ cs.foldl bump g, 0 < x.2 := by
  induction cs with
  | nil => intro g hg; simpa using hg
  | cons c rest ih =>
    intro g hg
    simp only [List.foldl_cons]
    exact ih _ (bump_pos hg c)

theorem countIn_mem {g : List (κ × Nat)} {c : κ} (hc : c ∈ g.map Prod.fst) :
    (c, countIn g c) ∈ g := by
  induction g with
  | nil => simp at hc
  | cons e rest ih =>
    obtain ⟨k, n⟩ := e
    by_cases hkc : k = c
    · subst hkc
      simp [countIn]
    · simp only [List.map_cons, List.mem_cons] at hc
      rcases hc with rfl | hc
      · exact absurd rfl hkc
      · simp only [countIn, if_neg hkc, List.mem_cons]
        exact Or.inr (ih hc)

theorem countIn_eq_zero {g : List (κ × Nat)} {c : κ} (hc : c ∉ g.map Prod.fst) :
    countIn g c = 0 := by
  induction g with
  | nil => rfl
  | cons e rest ih =>
    obtain ⟨k, n⟩ := e
    simp only [List.map_cons, List.mem_cons] at hc
    push_neg at hc
    have hkc : ¬ k = c := fun h => hc.1 h.symm
    simp only [countIn, if_neg hkc, ih hc.2]

theorem countIn_eq_of_mem {g : List (κ × Nat)} (hg : (g.map Prod.fst).Nodup)
    {c : κ} {n : Nat} (h : (c, n) ∈ g) : countIn g c = n := by
  induction g with
  | nil => simp at h
  | cons e rest ih =>
    obtain ⟨k, m⟩ := e
    simp only [List.map_cons, List.nodup_cons] at hg
    simp only [List.mem_cons, Prod.mk.injEq] at h
    rcases h with ⟨rfl, rfl⟩ | h
    · simp [countIn]
    · have hkc : k ≠ c := by
        intro hk
        subst hk
        exact hg.1 (List.mem_map.mpr ⟨(k, n), h, rfl⟩)
      simp only [countIn, if_neg hkc]
      exact ih hg.2 h

theorem foldl_bump_keys_nodup (cs : List κ) :
    ∀ g : List (κ × Nat), (g.map Prod.fst).Nodup → ((cs.foldl bump g).map Prod.fst).Nodup := by
  induction cs with
  | nil => intro g hg; simpa using hg
  | cons c rest ih =>
    intro g hg
    simp only [List.foldl_cons]
    refine ih _ ?_
    rw [bump_keys]
    by_cases hc : c ∈ g.map Prod.fst
    · simpa [hc] using hg
    · simp only [if_neg hc]
      simpa [List.nodup_append, hc] using hg

end ListHelpers

section MaxEntry

variable {κ : Type}

theorem maxFold_spec (rest : List (κ × Nat)) :
    ∀ e : κ × Nat,
      (∃ l1 l2,
          e :: rest = l1 ++ (rest.foldl (fun b x => if b.2 < x.2 then x else b) e) :: l2 ∧
          ∀ x ∈ l1, x.2 < (rest.foldl (fun b x => if b.2 < x.2 then x else b) e).2) ∧
        ∀ x ∈ e :: rest, x.2 ≤ (rest.foldl (fun b x => if b.2 < x.2 then x else b) e).2 := by
  induction rest with
  | nil =>
    intro e
    refine ⟨⟨[], [], by simp, by simp⟩, ?_⟩
    simp
  | cons x rest ih =>
    intro e
    rw [List.foldl_cons]
    obtain ⟨⟨l1, l2, hdecomp, hstrict⟩, hle⟩ := ih (if e.2 < x.2 then x else e)
    set m := rest.foldl (fun b x => if b.2 < x.2 then x else b) (if e.2 < x.2 then x else e)
      with hm
    constructor
    · by_cases hex : e.2 < x.2
      · rw [if_pos hex] at hdecomp
        refine ⟨e :: l1, l2, by rw [List.cons_append, hdecomp], ?_⟩
        intro y hy
        rcases List.mem_cons.mp hy with hye | hy
        · have hx2 : x.2 ≤ m.2 := by
            have h0 := hle (if e.2 < x.2 then x else e) (List.mem_cons_self _ _)
            rwa [if_pos hex] at h0
          have hy2 : y.2 < x.2 := hye ▸ hex
          omega
        · exact hstrict y hy
      · rw [if_neg hex] at hdecomp
        cases l1 with
        | nil =>
          simp only [List.nil_append] at hdecomp
          have he : e = m := (List.cons.injEq _ _ _ _ ▸ hdecomp).1
          have hrest : rest = l2 := (List.cons.injEq _ _ _ _ ▸ hdecomp).2
          refine ⟨[], x :: rest, ?_, by simp⟩
          rw [List.nil_append, ← he, hrest]
        | cons e1 l1 =>
          simp only [List.cons_append, List.cons.injEq] at hdecomp
          obtain ⟨rfl, hrest⟩ := hdecomp
          refine ⟨e :: x :: l1, l2, by simp [hrest], ?_⟩
          intro y hy
          have h1 : e.2 < m.2 := hstrict _ (List.mem_cons_self _ _)
          rcases List.mem_cons.mp hy with rfl | hy
          · exact h1
          rcases List.mem_cons.mp hy with rfl | hy
          · omega
          · exact hstrict y (List.mem_cons_of_mem _ hy)
    · have hhead : (if e.2 < x.2 then x else e).2 ≤ m.2 := hle _ (List.mem_cons_self _ _)
      have hex2 : e.2 ≤ m.2 ∧ x.2 ≤ m.2 := by
        by_cases hex : e.2 < x.2
        · rw [if_pos hex] at hhead
          exact ⟨by omega, hhead⟩
        · rw [if_neg hex] at hhead
          exact ⟨hhead, by omega⟩
      intro y hy
      rcases List.mem_cons.mp hy with rfl | hy
      · exact hex2.1
      rcases List.mem_cons.mp hy with rfl | hy
      · exact hex2.2
      · exact hle y (List.mem_cons_of_mem _ hy)

theorem maxEntry_spec {l : List (κ × Nat)} {m : κ × Nat} (h : maxEntry l = some m) :
    (∃ l1 l2, l = l1 ++ m :: l2 ∧ ∀ x ∈ l1, x.2 < m.2) ∧ ∀ x ∈ l, x.2 ≤ m.2 := by
  cases l with
  | nil => simp [maxEntry] at h
  | cons e rest =>
    simp only [maxEntry, Option.some.injEq] at h
    subst h
    exact maxFold_spec rest e

theorem maxEntry_eq_none_iff {l : List (κ × Nat)} : maxEntry l = none ↔ l = [] := by
  cases l <;> simp [maxEntry]

end MaxEntry

/-! ## The running-minimum loop shared by both proximity analyzers

Both analyzers keep `min_distance = float('inf')` and a payload that is
overwritten whenever `distance < min_distance`.  `none` models `inf`. -/

section MinScan

variable {β : Type}

/-- Comparison `d < min_distance`, where `none` stands for `float('inf')`. -/
def isLess (d : ℚ) : Option ℚ → Bool
  | none => true
  | some m => decide (d < m)

/-- One iteration of the running-minimum loop over a `(distance, payload)`
candidate. -/
def stepMin (acc : Option ℚ × Option β) (c : ℚ × β) : Option ℚ × Option β :=
  if isLess c.1 acc.1 then (some c.1, some c.2) else acc

/-- The whole running-minimum loop over a list of candidates, started from
`min_distance = inf` and an empty payload. -/
def scanPairs (cands : List (ℚ × β)) : Option ℚ × Option β :=
  cands.foldl stepMin (none, none)

/-- Invariant of the running-minimum loop: after scanning candidates whose
distances are `ds`, the accumulator is empty exactly when `ds` is, and
otherwise holds the minimum of `ds` together with some payload. -/
def MinInv (r : Option ℚ × Option β) (ds : List ℚ) : Prop :=
  (r.1 = none → ds = [] ∧ r.2 = none) ∧
    ∀ v, r.1 = some v → (∃ b, r.2 = some b) ∧ v ∈ ds ∧ ∀ x ∈ ds, v ≤ x

theorem minInv_foldl (cands : List (ℚ × β)) :
    ∀ (acc : Option ℚ × Option β) (seen : List ℚ), MinInv acc seen →
      MinInv (cands.foldl stepMin acc) (seen ++ cands.map Prod.fst) := by
  induction cands with
  | nil => intro acc seen h; simpa using h
  | cons c rest ih =>
    intro acc seen h
    rw [List.foldl_cons, List.map_cons]
    have hstep : MinInv (stepMin acc c) (seen ++ [c.1]) := by
      unfold stepMin
      by_cases hless : isLess c.1 acc.1 = true
      · rw [if_pos hless]
        constructor
        · intro h1
          simp at h1
        · intro v hv
          have hvc : v = c.1 := (Option.some.inj hv).symm
          subst hvc
          refine ⟨⟨c.2, rfl⟩, by simp, ?_⟩
          intro x hx
          rcases List.mem_append.mp hx with hx | hx
          · cases hacc : acc.1 with
            | none =>
              obtain ⟨hseen, _⟩ := h.1 hacc
              subst hseen
              simp at hx
            | some m =>
              have hcm : c.1 < m := by simpa [isLess, hacc] using hless
              have := (h.2 m hacc).2.2 x hx
              linarith
          · have hxc : x = c.1 := by simpa using hx
            exact le_of_eq hxc.symm
      · rw [if_neg hless]
        cases hacc : acc.1 with
        | none => simp [hacc, isLess] at hless
        | some m =>
          have hmc : m ≤ c.1 := by
            by_contra hlt
            push_neg at hlt
            simp [isLess, hacc, hlt] at hless
          constructor
          · intro h1
            rw [h1] at hacc
            simp at hacc
          · intro v hv
            rw [hacc] at hv
            have hvm : m = v := Option.some.inj hv
            subst hvm
            obtain ⟨hb, hmem, hmin⟩ := h.2 m hacc
            refine ⟨hb, List.mem_append.mpr (Or.inl hmem), ?_⟩
            intro x hx
            rcases List.mem_append.mp hx with hx | hx
            · exact hmin x hx
            · have hxc : x = c.1 := by simpa using hx
              calc m ≤ c.1 := hmc
                _ = x := hxc.symm
    have := ih (stepMin acc c) (seen ++ [c.1]) hstep
    simpa [List.append_assoc] using this

theorem scanPairs_minInv (cands : List (ℚ × β)) :
    MinInv (scanPairs cands) (cands.map Prod.fst) := by
  have h0 : MinInv ((none, none) : Option ℚ × Option β) [] := by
    constructor
    · intro _; exact ⟨rfl, rfl⟩
    · intro v hv; simp at hv
  simpa using minInv_foldl cands (none, none) [] h0

theorem scanPairs_fst_eq_none_iff (cands : List (ℚ × β)) :
    (scanPairs cands).1 = none ↔ cands = [] := by
  constructor
  · intro h
    have := (scanPairs_minInv cands).1 h
    simpa using this.1
  · rintro rfl
    rfl

theorem scanPairs_of_ne_nil {cands : List (ℚ × β)} (h : cands ≠ []) :
    ∃ v b, scanPairs cands = (some v, some b) ∧ v ∈ cands.map Prod.fst ∧
      ∀ x ∈ cands.map Prod.fst, v ≤ x := by
  cases hv : (scanPairs cands).1 with
  | none => exact absurd ((scanPairs_fst_eq_none_iff cands).mp hv) h
  | some v =>
    obtain ⟨⟨b, hb⟩, hmem, hmin⟩ := (scanPairs_minInv cands).2 v hv
    exact ⟨v, b, by rw [← hv, ← hb], hmem, hmin⟩

end MinScan

/-! ## `random.sample`: uniform selection without replacement

`random.sample(population, n)` draws `n` distinct positions.  The entropy
source is injected as a list of naturals; whatever those values are, the
result is a without-replacement selection: it has length
`min n |population|` and is a permutation of a sublist of the population. -/

section Sample

variable {α : Type}

/-- Without-replacement sampling: each draw removes the chosen element
before the next draw, exactly as `random.sample` never reuses an index. -/
def randomSample : List Nat → List α → Nat → List α
  | _, _, 0 => []
  | ent, xs, n + 1 =>
    match xs with
    | [] => []
    | y :: ys =>
      let l := y :: ys
      let i := ent.headD 0 % l.length
      l.getD i y :: randomSample ent.tail (l.eraseIdx i) n

theorem length_randomSample (n : Nat) :
    ∀ (ent : List Nat) (xs : List α), (randomSample ent xs n).length = min n xs.length := by
  induction n with
  | zero => intro ent xs; simp [randomSample]
  | succ n ih =>
    intro ent xs
    cases xs with
    | nil => simp [randomSample]
    | cons y ys =>
      have hi : ent.headD 0 % (y :: ys).length < (y :: ys).length :=
        Nat.mod_lt _ (by simp)
      have herase := List.length_eraseIdx_add_one hi
      simp only [List.length_cons] at herase
      simp only [randomSample, List.length_cons, ih]
      omega

theorem getD_cons_eraseIdx_perm (d : α) :
    ∀ (l : List α) (i : Nat), i < l.length → (l.getD i d :: l.eraseIdx i).Perm l := by
  intro l
  induction l with
  | nil => intro i hi; simp at hi
  | cons y ys ih =>
    intro i hi
    cases i with
    | zero => simp
    | succ i =>
      simp only [List.length_cons, Nat.succ_lt_succ_iff] at hi
      have hperm := ih i hi
      have hstep : (y :: ys).getD (i + 1) d :: (y :: ys).eraseIdx (i + 1)
          = ys.getD i d :: y :: ys.eraseIdx i := by
        simp [List.getD_cons_succ, List.eraseIdx_cons_succ]
      rw [hstep]
      exact (List.Perm.swap y (ys.getD i d) (ys.eraseIdx i)).trans (hperm.cons y)

theorem randomSample_subperm (n : Nat) :
    ∀ (ent : List Nat) (xs : List α), (randomSample ent xs n).Subperm xs := by
  induction n with
  | zero => intro ent xs; simp [randomSample]
  | succ n ih =>
    intro ent xs
    cases xs with
    | nil => simp [randomSample]
    | cons y ys =>
      have hi : ent.headD 0 % (y :: ys).length < (y :: ys).length :=
        Nat.mod_lt _ (by simp)
      have hrec := ih ent.tail ((y :: ys).eraseIdx (ent.headD 0 % (y :: ys).length))
      have hcons := (List.subperm_cons ((y :: ys).getD (ent.headD 0 % (y :: ys).length) y)).mpr hrec
      have hperm := getD_cons_eraseIdx_perm y (y :: ys) _ hi
      simpa [randomSample] using hcons.trans hperm.subperm

end Sample

/-! ## `find?` decompositions (first matching element of a scan) -/

section FindLemmas

variable {α : Type}

theorem find?_eq_some_decomp {p : α → Bool} :
    ∀ {l : List α} {a : α}, l.find? p = some a →
      ∃ l1 l2, l = l1 ++ a :: l2 ∧ p a = true ∧ ∀ x ∈ l1, p x = false := by
  intro l
  induction l with
  | nil => intro a h; simp at h
  | cons y ys ih =>
    intro a h
    by_cases hy : p y = true
    · rw [List.find?_cons_of_pos _ hy] at h
      obtain rfl := Option.some.injEq _ _ ▸ h
      exact ⟨[], ys, by simp, hy, by simp⟩
    · have hy' : p y = false := by simpa using hy
      rw [List.find?_cons_of_neg _ (by simpa using hy)] at h
      obtain ⟨l1, l2, hdec, hpa, hprev⟩ := ih h
      refine ⟨y :: l1, l2, by simp [hdec], hpa, ?_⟩
      intro x hx
      rcases List.mem_cons.mp hx with rfl | hx
      · exact hy'
      · exact hprev x hx

theorem find?_eq_none_iff_all {p : α → Bool} {l : List α} :
    l.find? p = none ↔ ∀ x ∈ l, p x = false := by
  constructor
  · intro h x hx
    have := List.find?_eq_none.mp h x hx
    simpa using this
  · intro h
    exact List.find?_eq_none.mpr (fun x hx => by simp [h x hx])

theorem find?_eq_some_of_decomp {p : α → Bool} {l1 : List α} {l2 : List α} {a : α}
    (hpa : p a = true) (hprev : ∀ x ∈ l1, p x = false) :
    (l1 ++ a :: l2).find? p = some a := by
  induction l1 with
  | nil => simpa using List.find?_cons_of_pos l2 hpa
  | cons y ys ih =>
    have hy : p y = false := hprev y (List.mem_cons_self _ _)
    rw [List.cons_append, List.find?_cons_of_neg _ (by simp [hy])]
    exact ih (fun x hx => hprev x (List.mem_cons_of_mem _ hx))

theorem find?_eq_some_of_mem {p : α → Bool} {l : List α} {x : α} (hx : x ∈ l)
    (hpx : p x = true) : ∃ a, l.find? p = some a := by
  cases hf : l.find? p with
  | some a => exact ⟨a, rfl⟩
  | none =>
    have := find?_eq_none_iff_all.mp hf x hx
    rw [hpx] at this
    exact absurd this (by simp)

end FindLemmas

/-! ## `run_oilgas_analyzer.py`: index build and `analyze_coral_proximity`

The geometry type `G` is abstract; `boundsOf` is shapely's `.bounds` and
`dist` its exact geometric distance.  A coral feature is a GeoJSON feature:
an optional geometry (`geom.get('geometry')`) plus the `ECOREGION`
property. -/

section Oilgas

variable {G : Type}

/-- A coral GeoJSON feature: `{'geometry': ..., 'properties': {'ECOREGION': ...}}`.
Only the parts the analyzer reads are modelled. -/
structure OGFeature (G : Type) where
  geometry : Option G
  ecoregion : Option String
deriving DecidableEq

/-- Line 58, `coral_shapes = [shape(geom['geometry']) for geom in coral_features if geom.get('geometry')]`
(line 58): features without a geometry are dropped, shifting positions. -/
def coralShapes (features : List (OGFeature G)) : List G :=
  features.filterMap (fun f => f.geometry)

/-- The compacted list `valid_shapes_for_index` built at lines 63-70: only
shapes with a valid bounding box, in their original relative order. -/
def validShapesForIndex (boundsOf : G → Box) (shapes : List G) : List G :=
  shapes.filter (fun s => validBox (boundsOf s))

/-- The entries `idx.insert(i, coral_shape.bounds)` of the oil & gas index
(lines 64-69): the slot id is the position `i` in `coral_shapes` (before
compaction), and only valid boxes are inserted. -/
def oilgasIndex (boundsOf : G → Box) (shapes : List G) : List (Nat × Box) :=
  ((enumFrom 0 shapes).filter (fun p => validBox (boundsOf p.2))).map
    (fun p => (p.1, boundsOf p.2))

/-- The story assembled at lines 94-101; only the fields the claims are
about are modelled (the platform attributes are copied verbatim from the
drawn platform and play no role in any claim). -/
structure OGStory where
  coral_ecoregion : String
  distance_km : ℚ
deriving DecidableEq

/-- The loop of lines 82-91: for every returned slot id `k`,
`distance = platform_point.distance(valid_shapes_for_index[k])` and, on
improvement, `closest_coral_feature = coral_features[k]`.  Both lookups
index with the pre-compaction slot id; an out-of-range lookup is Python's
`IndexError` and is modelled by `Except.error`. -/
def coralScan (dist : G → G → ℚ) (features : List (OGFeature G)) (validList : List G)
    (platform : G) : List Nat → (Option ℚ × Option (OGFeature G)) →
      Except Unit (Option ℚ × Option (OGFeature G))
  | [], acc => Except.ok acc
  | k :: ks, acc =>
    match validList.get? k with
    | none => Except.error ()
    | some s =>
      if isLess (dist platform s) acc.1 then
        match features.get? k with
        | none => Except.error ()
        | some f => coralScan dist features validList platform ks (some (dist platform s), some f)
      else coralScan dist features validList platform ks acc

/-- Function `analyze_coral_proximity` (lines 45-107): guard on empty inputs, build
the shape lists, draw one random platform (`random.choice`), run one k=5
nearest query, scan the candidates and convert the minimum to kilometers
with the fixed multiplier 111.32.  `nearest` is the rtree query oracle. -/
def analyze_coral_proximity (boundsOf : G → Box) (dist : G → G → ℚ)
    (nearest : Box → Nat → List Nat) (platforms : List G)
    (features : List (OGFeature G)) (entropy : Nat) :
    Except Unit (Option OGStory) :=
  match platforms, features with
  | [], _ => Except.ok none
  | _, [] => Except.ok none
  | p0 :: ps, _ :: _ =>
    let plist := p0 :: ps
    let shapes := coralShapes features
    let validList := validShapesForIndex boundsOf shapes
    let platform := plist.getD (entropy % plist.length) p0
    let ks := nearest (boundsOf platform) 5
    match coralScan dist features validList platform ks (none, none) with
    | Except.error e => Except.error e
    | Except.ok (some d, some f) =>
      Except.ok (some ⟨(f.ecoregion).getD ("a sensitive marine area"), d * (111.32 : ℚ)⟩)
    | Except.ok _ => Except.ok none

end Oilgas

/-! ## `run_fishing_analyzer.py`: the three story analyzers -/

section Fishing

variable {G : Type}

/-- Constant `ANALYSIS_SAMPLE_SIZE = 500` (line 15). -/
def ANALYSIS_SAMPLE_SIZE : Nat := 500

/-- The MPA index build of lines 52-54: `idx.insert(pos, mpa_shape.bounds)`
for every processed shape, with no bounding-box validity check. -/
def fishingIndex (boundsOf : G → Box) (shapes : List G) : List (Nat × Box) :=
  (enumFrom 0 shapes).map (fun p => (p.1, boundsOf p.2))

/-- The MPA shape list of line 49:
`[shape(geom) for geom in mpa_geometries if geom and geom.get('coordinates')]`.
A raw geometry without coordinates is `none`. -/
def mpaShapes (mpaGeoms : List (Option G)) : List G :=
  mpaGeoms.filterMap id

/-- Query `list(idx.nearest(point.bounds, 5))` then
`distance = point.distance(mpa_shapes[mpa_idx])` for one sampled event
(lines 66-68).  A slot id outside `mpa_shapes` would be an `IndexError`;
the rtree only returns inserted slots, so this never fires. -/
def lookupDists (dist : Pos → G → ℚ) (shapes : List G) (p : Pos) :
    List Nat → Except Unit (List ℚ)
  | [] => Except.ok []
  | k :: ks =>
    match shapes.get? k with
    | none => Except.error ()
    | some s =>
      match lookupDists dist shapes p ks with
      | Except.error e => Except.error e
      | Except.ok ds => Except.ok (dist p s :: ds)

/-- The nested loop of lines 59-71: running minimum over the sample, with
the sampled event's coordinates as payload. -/
def mpaScan (dist : Pos → G → ℚ) (shapes : List G) (nearest : Pos → Nat → List Nat) :
    List Pos → (Option ℚ × Option Pos) → Except Unit (Option ℚ × Option Pos)
  | [], acc => Except.ok acc
  | p :: rest, acc =>
    match lookupDists dist shapes p (nearest p 5) with
    | Except.error e => Except.error e
    | Except.ok ds =>
      mpaScan dist shapes nearest rest
        (ds.foldl (fun a d => if isLess d a.1 then (some d, some p) else a) acc)

/-- The closest-event record of line 71:
`{"distance_km": distance * 111.32, "fishing_coords": coords}`. -/
structure MpaStory where
  distance_km : ℚ
  fishing_coords : Pos
deriving DecidableEq

/-- Function `analyze_mpa_proximity` (lines 42-81): guard on empty raw inputs, build
the shapes, draw `random.sample(fishing_events, min(len, 500))`, scan the
sample, and return the minimum converted with the 111.32 multiplier, or
`none` when no candidate was ever seen. -/
def analyze_mpa_proximity (dist : Pos → G → ℚ) (nearest : Pos → Nat → List Nat)
    (mpaGeoms : List (Option G)) (events : List Pos) (entropy : List Nat) :
    Except Unit (Option MpaStory) :=
  if mpaGeoms.isEmpty || events.isEmpty then Except.ok none
  else
    let shapes := mpaShapes mpaGeoms
    let sample := randomSample entropy events (min events.length ANALYSIS_SAMPLE_SIZE)
    match mpaScan dist shapes nearest sample (none, none) with
    | Except.error e => Except.error e
    | Except.ok (some d, some p) => Except.ok (some ⟨d * (111.32 : ℚ), p⟩)
    | Except.ok _ => Except.ok none

/-- The grid cell of lines 91-93:
`(int(lon // 5 * 5), int(lat // 5 * 5))` — Python float floor division,
exact on rationals. -/
def cellOf (p : Pos) : Int × Int :=
  (Int.floor (p.lon / 5) * 5, Int.floor (p.lat / 5) * 5)

/-- The grid dict of lines 89-94, in dict insertion order. -/
def gridOf (events : List Pos) : List ((Int × Int) × Nat) :=
  (events.map cellOf).foldl bump []

/-- The hotspot story of lines 99-103. -/
structure HotspotStory where
  center_lon : ℚ
  center_lat : ℚ
  event_count : Nat
deriving DecidableEq

/-- Function `analyze_global_hotspot` (lines 83-106): full scan of every event into
5-degree cells, `max(grid, key=grid.get)`, centroid at cell + 2.5. -/
def analyze_global_hotspot (events : List Pos) : Option HotspotStory :=
  match events with
  | [] => none
  | _ :: _ =>
    match maxEntry (gridOf events) with
    | none => none
    | some (c, n) => some ⟨(c.1 : ℚ) + (2.5 : ℚ), (c.2 : ℚ) + (2.5 : ℚ), n⟩

/-- A fishing event as read by `analyze_eez_focus`: coordinates plus the
optional `regions.eez` list. -/
structure FishEvent where
  lon : ℚ
  lat : ℚ
  eez : Option (List String)
deriving DecidableEq

/-- The filter of line 113: `event.get('regions', {}).get('eez')` is truthy
exactly when the eez list is present and non-empty, and the counted value
is `eez[0]`. -/
def eezKeyOf (e : FishEvent) : Option String :=
  match e.eez with
  | some (x :: _) => some x
  | _ => none

/-- The `Counter` of line 113, in first-occurrence (insertion) order. -/
def eezCounts (events : List FishEvent) : List (String × Nat) :=
  (events.filterMap eezKeyOf).foldl bump []

/-- The EEZ story of lines 123-128. -/
structure EezStory where
  eez_name : String
  event_count : Nat
  center : Option (ℚ × ℚ)
deriving DecidableEq

/-- Function `analyze_eez_focus` (lines 108-131): count first eez values over events
carrying one, pick `most_common(1)[0]`, and take the coordinates of the
first event in dataset order matching the winner. -/
def analyze_eez_focus (events : List FishEvent) : Option EezStory :=
  match events with
  | [] => none
  | _ :: _ =>
    match maxEntry (eezCounts events) with
    | none => none
    | some (name, n) =>
      some ⟨name, n,
        (events.find? (fun e => decide (eezKeyOf e = some name))).map
          (fun e => (e.lon, e.lat))⟩

end Fishing

/-! ## Run-level control flow: log loading, appending and persisting -/

section Runs

variable {S E : Type}

/-- The tail of `run_fishing_analyzer.py`'s `main` (lines 218-246): abort
with no write when no story was found or the generator failed; otherwise
load the remote log (`loaded`), `all_insights.insert(0, insight_data)` and
persist.  The result is the persisted content, `none` meaning nothing was
written.  No deduplication of any kind is performed before the insert. -/
def fishingRun (story : Option S) (gen : S → Option E) (loaded : List E) :
    Option (List E) :=
  match story with
  | none => none
  | some s =>
    match gen s with
    | none => none
    | some e => some (e :: loaded)

/-- The tail of `run_oilgas_analyzer.py`'s `main` (lines 184-198): abort
with no write on a missing story or failed generation; on success write the
single new insight (no log is loaded by this script). -/
def oilgasRun (story : Option S) (gen : S → Option E) : Option E :=
  match story with
  | none => none
  | some s => gen s

/-- An entry of the persisted fishing log as far as claim C2 is concerned:
the deduplication key the spec talks about. -/
structure LogEntry where
  unique_id : String
deriving DecidableEq

end Runs

/-! ## `run_news_curator.py`: deduplication of news candidates -/

section News

/-- A candidate RSS article (`article.title`, `article.link`). -/
structure Article where
  title : String
  link : String
deriving DecidableEq

/-- An entry of the remote insight log as read by `find_unique_article`:
the optional `source_headline` and `source_url` fields. -/
structure LogItem where
  source_headline : Option String
  source_url : Option String
deriving DecidableEq

/-- The set comprehension of line 64:
`{item['source_headline'] for item in all_insights if 'source_headline' in item}`.
Set membership coincides with list membership. -/
def previousHeadlines (insights : List LogItem) : List String :=
  insights.filterMap (fun it => it.source_headline)

/-- Function `find_unique_article` (lines 51-78): skip every candidate whose title
is in the previously published headline set, return the first remaining
candidate, `none` when all are duplicates.  No URL comparison and no
similarity ratio appears anywhere in this function. -/
def find_unique_article (insights : List LogItem) (articles : List Article) :
    Option Article :=
  articles.find? (fun a => !((previousHeadlines insights).contains a.title))

/-- The URLs recorded in the log (`source_url`); the source never reads
them during deduplication. -/
def previousUrls (insights : List LogItem) : List String :=
  insights.filterMap (fun it => it.source_url)

/-- Modelled from the spec: the source file defines
`SIMILARITY_THRESHOLD = 0.9` and imports `SequenceMatcher` but never calls
it, so the "normalized similarity ratio (edit-distance-based, range [0,1])"
of the spec has no implementation under `src/`.  It is modelled here as the
normalized Levenshtein similarity `1 - d(a,b) / max(|a|,|b|)`. -/
def specSimilarity (a b : String) : ℚ :=
  if a.toList.length = 0 ∧ b.toList.length = 0 then 1
  else
    1 - ((levenshtein Levenshtein.defaultCost a.toList b.toList : Nat) : ℚ) /
      ((max a.toList.length b.toList.length : Nat) : ℚ)

/-- Constant `SIMILARITY_THRESHOLD = 0.9` (line 14 of the source, unused there). -/
def SIMILARITY_THRESHOLD : ℚ := 0.9

end News

/-! ## Evaluation helpers for concrete inputs -/

/-- Evaluate `cellOf` at a concrete point by exhibiting the floors. -/
theorem cellOf_eval {p : Pos} {a b : Int} (ha1 : (a : ℚ) ≤ p.lon / 5)
    (ha2 : p.lon / 5 < a + 1) (hb1 : (b : ℚ) ≤ p.lat / 5) (hb2 : p.lat / 5 < b + 1) :
    cellOf p = (a * 5, b * 5) := by
  unfold cellOf
  have hfa : Int.floor (p.lon / 5) = a := Int.floor_eq_iff.mpr ⟨ha1, by exact_mod_cast ha2⟩
  have hfb : Int.floor (p.lat / 5) = b := Int.floor_eq_iff.mpr ⟨hb1, by exact_mod_cast hb2⟩
  rw [hfa, hfb]

/-! ## Claim theorems -/

/-- Claim C7: The grid hotspot analyzer assigns every point of the entire
dataset to the cell `(floor(lon/5)*5, floor(lat/5)*5)` (longitude `-1.6`
falls in cell coordinate `-5`, not `0`; the per-cell counts sum to the full
event count), selects the cell with the maximum count with ties broken in
favor of the first-encountered cell in dict iteration order (which is
first-occurrence order over the events), and reports the cell centroid
`(cell.lon + 2.5, cell.lat + 2.5)` together with that cell's count. -/
theorem c7_grid_hotspot (events : List Pos) (hne : events ≠ []) :
    cellOf ⟨(-1.6 : ℚ), 4⟩ = (-5, 0) ∧
    sumCounts (gridOf events) = events.length ∧
    ∃ w n,
      analyze_global_hotspot events =
        some ⟨(w.1 : ℚ) + (2.5 : ℚ), (w.2 : ℚ) + (2.5 : ℚ), n⟩ ∧
      n = tally (events.map cellOf) w ∧
      (∀ c : Int × Int, tally (events.map cellOf) c ≤ n) ∧
      (∃ g1 g2, gridOf events = g1 ++ (w, n) :: g2 ∧ ∀ x ∈ g1, x.2 < n) ∧
      (gridOf events).map Prod.fst = firstOccurrences (events.map cellOf) := by
  refine ⟨?_, ?_, ?_⟩
  · have h1 : cellOf ⟨(-1.6 : ℚ), 4⟩ = ((-1) * 5, 0 * 5) := by
      refine cellOf_eval ?_ ?_ ?_ ?_ <;> norm_num
    rw [h1]
    norm_num
  · have := foldl_bump_sumCounts (events.map cellOf) []
    simpa [gridOf, sumCounts] using this
  · match events, hne with
    | e :: es, _ =>
      have hkeys : (gridOf (e :: es)).map Prod.fst = firstOccurrences ((e :: es).map cellOf) := by
        have := foldl_bump_keys ((e :: es).map cellOf) []
        simpa [gridOf, firstOccurrences] using this
      have hgridne : gridOf (e :: es) ≠ [] := by
        intro h0
        have : ((gridOf (e :: es)).map Prod.fst) = [] := by rw [h0]; rfl
        rw [hkeys] at this
        simp [firstOccurrences, newKeys] at this
      obtain ⟨⟨w, n⟩, hmax⟩ : ∃ m, maxEntry (gridOf (e :: es)) = some m := by
        cases hm : maxEntry (gridOf (e :: es)) with
        | none => exact absurd (maxEntry_eq_none_iff.mp hm) hgridne
        | some m => exact ⟨m, rfl⟩
      obtain ⟨⟨g1, g2, hdec, hstrict⟩, hle⟩ := maxEntry_spec hmax
      have hnodup : ((gridOf (e :: es)).map Prod.fst).Nodup := by
        have := foldl_bump_keys_nodup ((e :: es).map cellOf) [] (by simp)
        simpa [gridOf] using this
      have hwmem : (w, n) ∈ gridOf (e :: es) := by
        rw [hdec]
        exact List.mem_append.mpr (Or.inr (List.mem_cons_self _ _))
      have hcount : ∀ c : Int × Int, countIn (gridOf (e :: es)) c = tally ((e :: es).map cellOf) c := by
        intro c
        have := foldl_bump_countIn ((e :: es).map cellOf) [] c
        simpa [gridOf, countIn] using this
      have hn : n = tally ((e :: es).map cellOf) w := by
        rw [← hcount w]
        exact (countIn_eq_of_mem hnodup hwmem).symm
      refine ⟨w, n, ?_, hn, ?_, ⟨g1, g2, hdec, hstrict⟩, hkeys⟩
      · simp only [analyze_global_hotspot, hmax]
      · intro c
        rw [← hcount c]
        by_cases hc : c ∈ (gridOf (e :: es)).map Prod.fst
        · exact hle (c, countIn (gridOf (e :: es)) c) (countIn_mem hc)
        · rw [countIn_eq_zero hc]
          exact Nat.zero_le n

/-- Witness for C7 at the single event `(-1.6, 4)`. -/
theorem c7_grid_hotspot_witness :
    cellOf ⟨(-1.6 : ℚ), 4⟩ = (-5, 0) ∧
    sumCounts (gridOf [⟨(-1.6 : ℚ), 4⟩]) = ([⟨(-1.6 : ℚ), 4⟩] : List Pos).length ∧
    ∃ w n,
      analyze_global_hotspot [⟨(-1.6 : ℚ), 4⟩] =
        some ⟨(w.1 : ℚ) + (2.5 : ℚ), (w.2 : ℚ) + (2.5 : ℚ), n⟩ ∧
      n = tally (([⟨(-1.6 : ℚ), 4⟩] : List Pos).map cellOf) w ∧
      (∀ c : Int × Int, tally (([⟨(-1.6 : ℚ), 4⟩] : List Pos).map cellOf) c ≤ n) ∧
      (∃ g1 g2, gridOf [⟨(-1.6 : ℚ), 4⟩] = g1 ++ (w, n) :: g2 ∧ ∀ x ∈ g1, x.2 < n) ∧
      (gridOf [⟨(-1.6 : ℚ), 4⟩]).map Prod.fst =
        firstOccurrences (([⟨(-1.6 : ℚ), 4⟩] : List Pos).map cellOf) :=
  c7_grid_hotspot [⟨(-1.6 : ℚ), 4⟩] (by simp)

/-- Claim C10: On every non-empty event list the grid hotspot analyzer
returns a story; its count is at least 1, bounds the count of every grid
cell, and the per-cell counts sum to the total number of events. -/
theorem c10_hotspot_nonempty (events : List Pos) (hne : events ≠ []) :
    ∃ st, analyze_global_hotspot events = some st ∧ 1 ≤ st.event_count ∧
      (∀ c : Int × Int, tally (events.map cellOf) c ≤ st.event_count) ∧
      sumCounts (gridOf events) = events.length := by
  match events, hne with
  | e :: es, _ =>
    have hkeys : (gridOf (e :: es)).map Prod.fst = firstOccurrences ((e :: es).map cellOf) := by
      have := foldl_bump_keys ((e :: es).map cellOf) []
      simpa [gridOf, firstOccurrences] using this
    have hgridne : gridOf (e :: es) ≠ [] := by
      intro h0
      have : ((gridOf (e :: es)).map Prod.fst) = [] := by rw [h0]; rfl
      rw [hkeys] at this
      simp [firstOccurrences, newKeys] at this
    obtain ⟨⟨w, n⟩, hmax⟩ : ∃ m, maxEntry (gridOf (e :: es)) = some m := by
      cases hm : maxEntry (gridOf (e :: es)) with
      | none => exact absurd (maxEntry_eq_none_iff.mp hm) hgridne
      | some m => exact ⟨m, rfl⟩
    obtain ⟨⟨g1, g2, hdec, hstrict⟩, hle⟩ := maxEntry_spec hmax
    have hwmem : (w, n) ∈ gridOf (e :: es) := by
      rw [hdec]
      exact List.mem_append.mpr (Or.inr (List.mem_cons_self _ _))
    have hpos : 0 < n := by
      have := foldl_bump_pos ((e :: es).map cellOf) [] (by simp)
      have h2 := this (w, n) (by simpa [gridOf] using hwmem)
      simpa using h2
    have hcount : ∀ c : Int × Int, countIn (gridOf (e :: es)) c = tally ((e :: es).map cellOf) c := by
      intro c
      have := foldl_bump_countIn ((e :: es).map cellOf) [] c
      simpa [gridOf, countIn] using this
    refine ⟨⟨(w.1 : ℚ) + (2.5 : ℚ), (w.2 : ℚ) + (2.5 : ℚ), n⟩, ?_, hpos, ?_, ?_⟩
    · simp only [analyze_global_hotspot, hmax]
    · intro c
      rw [← hcount c]
      by_cases hc : c ∈ (gridOf (e :: es)).map Prod.fst
      · exact hle (c, countIn (gridOf (e :: es)) c) (countIn_mem hc)
      · rw [countIn_eq_zero hc]
        exact Nat.zero_le n
    · have := foldl_bump_sumCounts ((e :: es).map cellOf) []
      simpa [gridOf, sumCounts] using this

/-- Claim C8: The categorical focus analyzer counts only records carrying a
non-empty `regions.eez` value (records without one are not counted as a
null category and, when no record carries one, no story is produced),
selects the most frequent value with ties broken by first-encountered
insertion order, and returns the coordinates of the first record in dataset
order matching the winning category. -/
theorem c8_eez_focus (events : List FishEvent) :
    ((∀ e ∈ events, eezKeyOf e = none) → analyze_eez_focus events = none) ∧
    (∀ e0 ∈ events, ∀ x0, eezKeyOf e0 = some x0 →
      ∃ name n e,
        n = tally (events.filterMap eezKeyOf) name ∧
        (∀ v, tally (events.filterMap eezKeyOf) v ≤ n) ∧
        (∃ g1 g2, eezCounts events = g1 ++ (name, n) :: g2 ∧ ∀ x ∈ g1, x.2 < n) ∧
        (eezCounts events).map Prod.fst = firstOccurrences (events.filterMap eezKeyOf) ∧
        (∃ l1 l2, events = l1 ++ e :: l2 ∧ eezKeyOf e = some name ∧
          ∀ x ∈ l1, eezKeyOf x ≠ some name) ∧
        analyze_eez_focus events = some ⟨name, n, some (e.lon, e.lat)⟩) := by
  constructor
  · intro hall
    cases events with
    | nil => rfl
    | cons ev evs =>
      have hfm : (ev :: evs).filterMap eezKeyOf = [] := by
        rw [List.filterMap_eq_nil_iff]
        exact hall
      have hcounts : eezCounts (ev :: evs) = [] := by
        unfold eezCounts
        rw [hfm]
        rfl
      simp only [analyze_eez_focus, hcounts, maxEntry]
  · intro e0 he0 x0 hx0
    cases events with
    | nil => simp at he0
    | cons ev evs =>
      have hx0mem : x0 ∈ (ev :: evs).filterMap eezKeyOf :=
        List.mem_filterMap.mpr ⟨e0, he0, hx0⟩
      have hkeys : (eezCounts (ev :: evs)).map Prod.fst =
          firstOccurrences ((ev :: evs).filterMap eezKeyOf) := by
        have := foldl_bump_keys ((ev :: evs).filterMap eezKeyOf) []
        simpa [eezCounts, firstOccurrences] using this
      have hcountsne : eezCounts (ev :: evs) ≠ [] := by
        intro h0
        have hk : ((eezCounts (ev :: evs)).map Prod.fst) = [] := by rw [h0]; rfl
        rw [hkeys] at hk
        cases hfm : (ev :: evs).filterMap eezKeyOf with
        | nil => rw [hfm] at hx0mem; simp at hx0mem
        | cons y ys =>
          rw [hfm] at hk
          simp [firstOccurrences, newKeys] at hk
      obtain ⟨⟨name, n⟩, hmax⟩ : ∃ m, maxEntry (eezCounts (ev :: evs)) = some m := by
        cases hm : maxEntry (eezCounts (ev :: evs)) with
        | none => exact absurd (maxEntry_eq_none_iff.mp hm) hcountsne
        | some m => exact ⟨m, rfl⟩
      obtain ⟨⟨g1, g2, hdec, hstrict⟩, hle⟩ := maxEntry_spec hmax
      have hnodup : ((eezCounts (ev :: evs)).map Prod.fst).Nodup := by
        have := foldl_bump_keys_nodup ((ev :: evs).filterMap eezKeyOf) [] (by simp)
        simpa [eezCounts] using this
      have hwmem : (name, n) ∈ eezCounts (ev :: evs) := by
        rw [hdec]
        exact List.mem_append.mpr (Or.inr (List.mem_cons_self _ _))
      have hcount : ∀ v, countIn (eezCounts (ev :: evs)) v =
          tally ((ev :: evs).filterMap eezKeyOf) v := by
        intro v
        have := foldl_bump_countIn ((ev :: evs).filterMap eezKeyOf) [] v
        simpa [eezCounts, countIn] using this
      have hn : n = tally ((ev :: evs).filterMap eezKeyOf) name := by
        rw [← hcount name]
        exact (countIn_eq_of_mem hnodup hwmem).symm
      have hnamemem : name ∈ (ev :: evs).filterMap eezKeyOf := by
        have h1 : name ∈ (eezCounts (ev :: evs)).map Prod.fst :=
          List.mem_map.mpr ⟨(name, n), hwmem, rfl⟩
        rw [hkeys] at h1
        exact mem_of_mem_newKeys _ [] name h1
      obtain ⟨ew, hew, hewkey⟩ := List.mem_filterMap.mp hnamemem
      obtain ⟨e, hfind⟩ :=
        @find?_eq_some_of_mem FishEvent (fun e => decide (eezKeyOf e = some name))
          (ev :: evs) ew hew (by simp [hewkey])
      obtain ⟨l1, l2, hldec, hpa, hprev⟩ := find?_eq_some_decomp hfind
      refine ⟨name, n, e, hn, ?_, ⟨g1, g2, hdec, hstrict⟩, hkeys, ?_, ?_⟩
      · intro v
        rw [← hcount v]
        by_cases hv : v ∈ (eezCounts (ev :: evs)).map Prod.fst
        · exact hle (v, countIn (eezCounts (ev :: evs)) v) (countIn_mem hv)
        · rw [countIn_eq_zero hv]
          exact Nat.zero_le n
      · refine ⟨l1, l2, hldec, of_decide_eq_true hpa, ?_⟩
        intro x hx
        have := hprev x hx
        intro hcontra
        rw [hcontra] at this
        simp at this
      · simp only [analyze_eez_focus, hmax, hfind]
        rfl

/-- Witness for C8: three events, two sharing the zone name. -/
theorem c8_eez_focus_witness :
    ∃ name n e,
      n = tally (([⟨1, 2, some [("A")]⟩, ⟨3, 4, none⟩,
            ⟨5, 6, some [("A"), ("B")]⟩] : List FishEvent).filterMap eezKeyOf) name ∧
      (∀ v, tally (([⟨1, 2, some [("A")]⟩, ⟨3, 4, none⟩,
            ⟨5, 6, some [("A"), ("B")]⟩] : List FishEvent).filterMap eezKeyOf) v ≤ n) ∧
      (∃ g1 g2, eezCounts [⟨1, 2, some [("A")]⟩, ⟨3, 4, none⟩,
            ⟨5, 6, some [("A"), ("B")]⟩] = g1 ++ (name, n) :: g2 ∧ ∀ x ∈ g1, x.2 < n) ∧
      (eezCounts [⟨1, 2, some [("A")]⟩, ⟨3, 4, none⟩,
            ⟨5, 6, some [("A"), ("B")]⟩]).map Prod.fst =
        firstOccurrences (([⟨1, 2, some [("A")]⟩, ⟨3, 4, none⟩,
            ⟨5, 6, some [("A"), ("B")]⟩] : List FishEvent).filterMap eezKeyOf) ∧
      (∃ l1 l2, ([⟨1, 2, some [("A")]⟩, ⟨3, 4, none⟩,
            ⟨5, 6, some [("A"), ("B")]⟩] : List FishEvent) = l1 ++ e :: l2 ∧
          eezKeyOf e = some name ∧ ∀ x ∈ l1, eezKeyOf x ≠ some name) ∧
      analyze_eez_focus [⟨1, 2, some [("A")]⟩, ⟨3, 4, none⟩,
            ⟨5, 6, some [("A"), ("B")]⟩] = some ⟨name, n, some (e.lon, e.lat)⟩ :=
  (c8_eez_focus [⟨1, 2, some [("A")]⟩, ⟨3, 4, none⟩, ⟨5, 6, some [("A"), ("B")]⟩]).2
    ⟨1, 2, some [("A")]⟩ (by simp) ("A") (by simp [eezKeyOf])

/-- Claim C9: Each run mutates the persisted log by at most one
insert-at-head: on a fully successful fishing run exactly one new entry is
placed at index 0 with all previously loaded entries preserved in order,
and on any failing outcome (no story, failed narrative generation) nothing
is written; the oil & gas run likewise writes nothing on failure and, on
success, writes exactly the one new entry (that script loads no previous
entries). -/
theorem c9_log_mutation {S E : Type} (gen : S → Option E) (loaded : List E) (s : S) :
    fishingRun (none : Option S) gen loaded = none ∧
    (gen s = none → fishingRun (some s) gen loaded = none) ∧
    (∀ e, gen s = some e →
      fishingRun (some s) gen loaded = some (e :: loaded) ∧
      (e :: loaded).get? 0 = some e ∧
      (∀ i, (e :: loaded).get? (i + 1) = loaded.get? i) ∧
      (e :: loaded).length = loaded.length + 1) ∧
    oilgasRun (none : Option S) gen = none ∧
    (gen s = none → oilgasRun (some s) gen = none) ∧
    (∀ e, gen s = some e → oilgasRun (some s) gen = some e) := by
  refine ⟨rfl, ?_, ?_, rfl, ?_, ?_⟩
  · intro h
    simp [fishingRun, h]
  · intro e he
    exact ⟨by simp [fishingRun, he], rfl, fun i => rfl, rfl⟩
  · intro h
    simp [oilgasRun, h]
  · intro e he
    simp [oilgasRun, he]

/-- Witness for C9: a successful run, a failed generation, and a missing
story, on concrete data. -/
theorem c9_log_mutation_witness :
    fishingRun (some 0) (fun _ => some (7 : Nat)) [1, 2, 3] = some [7, 1, 2, 3] ∧
    fishingRun (some 0) (fun _ => (none : Option Nat)) [1, 2, 3] = none ∧
    fishingRun (none : Option Nat) (fun _ => some (7 : Nat)) [1, 2, 3] = none ∧
    oilgasRun (some 0) (fun _ => some (7 : Nat)) = some 7 ∧
    oilgasRun (some 0) (fun _ => (none : Option Nat)) = none :=
  ⟨((c9_log_mutation (fun _ => some 7) [1, 2, 3] 0).2.2.1 7 rfl).1,
    (c9_log_mutation (fun _ => (none : Option Nat)) [1, 2, 3] 0).2.1 rfl,
    (c9_log_mutation (fun _ => some 7) [1, 2, 3] 0).1,
    (c9_log_mutation (fun _ => some 7) ([] : List Nat) 0).2.2.2.2.2 7 rfl,
    (c9_log_mutation (fun _ => (none : Option Nat)) ([] : List Nat) 0).2.2.2.2.1 rfl⟩

/-- Claim C2, counterexample: A candidate whose `unique_id` equals the
`unique_id` of an existing log entry is appended anyway: the archiving step
of the fishing analyzer performs no deduplication check of any kind, so the
claimed rejection never happens. -/
theorem c2_dedup_counterexample :
    fishingRun (some 0)
        (fun _ => some (⟨("X-2024-01-01")⟩ : LogEntry)) [⟨("X-2024-01-01")⟩] =
      some [⟨("X-2024-01-01")⟩, ⟨("X-2024-01-01")⟩] ∧
    (⟨("X-2024-01-01")⟩ : LogEntry).unique_id =
      (⟨("X-2024-01-01")⟩ : LogEntry).unique_id :=
  ⟨rfl, rfl⟩

/-- Claim C2, amended: Every candidate reaching the archiving step is placed
at index 0 of the loaded log unconditionally, with all previous entries
shifted down unchanged; no `unique_id` is derived or compared, so a
candidate is accepted whether or not its `unique_id` already occurs in the
log. -/
theorem c2_append_unconditional {S : Type} (s : S) (gen : S → Option LogEntry)
    (loaded : List LogEntry) (c : LogEntry) (hgen : gen s = some c) :
    fishingRun (some s) gen loaded = some (c :: loaded) ∧
    (c :: loaded).get? 0 = some c ∧
    ∀ i, (c :: loaded).get? (i + 1) = loaded.get? i := by
  refine ⟨by simp [fishingRun, hgen], rfl, fun i => rfl⟩

/-- Witness for C2 amended: a candidate with a fresh `unique_id` lands at
index 0 above the old entry. -/
theorem c2_append_unconditional_witness :
    fishingRun (some 0)
        (fun _ => some (⟨("Y-2024-01-02")⟩ : LogEntry)) [⟨("X-2024-01-01")⟩] =
      some [⟨("Y-2024-01-02")⟩, ⟨("X-2024-01-01")⟩] ∧
    ([⟨("Y-2024-01-02")⟩, ⟨("X-2024-01-01")⟩] : List LogEntry).get? 0 =
      some ⟨("Y-2024-01-02")⟩ ∧
    ∀ i, ([⟨("Y-2024-01-02")⟩, ⟨("X-2024-01-01")⟩] : List LogEntry).get? (i + 1) =
      ([⟨("X-2024-01-01")⟩] : List LogEntry).get? i :=
  c2_append_unconditional 0 (fun _ => some ⟨("Y-2024-01-02")⟩)
    [⟨("X-2024-01-01")⟩] ⟨("Y-2024-01-02")⟩ rfl

set_option maxRecDepth 8000 in
/-- Claim C3, counterexample: A candidate whose link equals a logged
`source_url` and whose title is more than 0.9-similar (normalized
edit-distance similarity 12/13) to a logged headline is nevertheless
returned by `find_unique_article`: the source checks neither URLs nor any
similarity ratio, only exact title membership. -/
theorem c3_dedup_counterexample :
    find_unique_article [⟨some ("ocean report!"), some ("http://x")⟩]
        [⟨("ocean report"), ("http://x")⟩] =
      some ⟨("ocean report"), ("http://x")⟩ ∧
    ("http://x") ∈ previousUrls [⟨some ("ocean report!"), some ("http://x")⟩] ∧
    SIMILARITY_THRESHOLD < specSimilarity ("ocean report") ("ocean report!") := by
  refine ⟨rfl, by simp [previousUrls], ?_⟩
  have hlev : (levenshtein Levenshtein.defaultCost
      ("ocean report").toList ("ocean report!").toList : Nat) = 1 := by decide
  have hla : ("ocean report").toList.length = 12 := rfl
  have hlb : ("ocean report!").toList.length = 13 := rfl
  rw [SIMILARITY_THRESHOLD, specSimilarity, hlev, hla, hlb]
  norm_num

/-- Claim C3, amended: `find_unique_article` deduplicates by exact title only:
it returns the first candidate whose title is not among the previously
logged `source_headline` values (every earlier candidate's title is), and
`none` exactly when every candidate's title is already logged; no URL
membership and no similarity-ratio test is performed. -/
theorem c3_title_only_dedup (insights : List LogItem) (articles : List Article) :
    (∀ a, find_unique_article insights articles = some a ↔
      ∃ l1 l2, articles = l1 ++ a :: l2 ∧ a.title ∉ previousHeadlines insights ∧
        ∀ b ∈ l1, b.title ∈ previousHeadlines insights) ∧
    (find_unique_article insights articles = none ↔
      ∀ a ∈ articles, a.title ∈ previousHeadlines insights) := by
  constructor
  · intro a
    constructor
    · intro hfind
      obtain ⟨l1, l2, hdec, hpa, hprev⟩ := find?_eq_some_decomp hfind
      refine ⟨l1, l2, hdec, by simpa using hpa, ?_⟩
      intro b hb
      simpa using hprev b hb
    · rintro ⟨l1, l2, rfl, hpa, hprev⟩
      refine find?_eq_some_of_decomp (by simpa using hpa) ?_
      intro x hx
      simpa using hprev x hx
  · rw [find_unique_article, find?_eq_none_iff_all]
    constructor
    · intro h a ha
      simpa using h a ha
    · intro h a ha
      simpa using h a ha

/-- Witness for C3 amended: the first candidate duplicates a logged title
and is skipped; the second is fresh and is returned. -/
theorem c3_title_only_dedup_witness :
    find_unique_article [⟨some ("A"), none⟩]
        [⟨("A"), ("u1")⟩, ⟨("B"), ("u2")⟩] = some ⟨("B"), ("u2")⟩ :=
  ((c3_title_only_dedup [⟨some ("A"), none⟩]
      [⟨("A"), ("u1")⟩, ⟨("B"), ("u2")⟩]).1 ⟨("B"), ("u2")⟩).mpr
    ⟨[⟨("A"), ("u1")⟩], [], rfl, by simp [previousHeadlines],
      by
        intro b hb
        simp only [List.mem_singleton] at hb
        subst hb
        simp [previousHeadlines]⟩

/-- Filtering an enumeration filters the underlying list, position-wise. -/
theorem length_filter_enumFrom {α : Type} (q : α → Bool) (l : List α) :
    ∀ n, ((enumFrom n l).filter (fun p => q p.2)).length = (l.filter q).length := by
  induction l with
  | nil => intro n; rfl
  | cons x xs ih =>
    intro n
    by_cases hx : q x
    · simp [List.filter_cons, hx, ih]
    · simp [List.filter_cons, hx, ih]

/-- Claim C5, counterexample: The MPA proximity analyzer's index build inserts
every shape: with one degenerate box (`min_x > max_x`) and one valid box it
creates two slots, not one, and the degenerate box itself is inserted at
slot 0 — so the exclusion is not applied by every index build. -/
theorem c5_counterexample :
    (fishingIndex (fun b : Box => b) [⟨1, 1, 0, 0⟩, ⟨0, 0, 1, 1⟩]).length = 2 ∧
    (([⟨1, 1, 0, 0⟩, ⟨0, 0, 1, 1⟩] : List Box).filter (fun b => validBox b)).length = 1 ∧
    (fishingIndex (fun b : Box => b) [⟨1, 1, 0, 0⟩, ⟨0, 0, 1, 1⟩]).length ≠
      (([⟨1, 1, 0, 0⟩, ⟨0, 0, 1, 1⟩] : List Box).filter (fun b => validBox b)).length ∧
    (0, (⟨1, 1, 0, 0⟩ : Box)) ∈ fishingIndex (fun b : Box => b) [⟨1, 1, 0, 0⟩, ⟨0, 0, 1, 1⟩] ∧
    validBox ⟨1, 1, 0, 0⟩ = false := by
  have hd : validBox ⟨1, 1, 0, 0⟩ = false := by
    have h1 : ¬ ((1 : ℚ) ≤ 0) := by norm_num
    simp [validBox, h1]
  have ho : validBox ⟨0, 0, 1, 1⟩ = true := by
    have h1 : ((0 : ℚ) ≤ 1) := by norm_num
    simp [validBox, h1]
  have hfil : (([⟨1, 1, 0, 0⟩, ⟨0, 0, 1, 1⟩] : List Box).filter
      (fun b => validBox b)).length = 1 := by
    simp [List.filter_cons, hd, ho]
  refine ⟨by simp [fishingIndex], hfil, ?_, by simp [fishingIndex], hd⟩
  rw [hfil]
  simp [fishingIndex]

/-- Claim C5, amended: The coral-reef analyzer's index build excludes exactly
the geometries whose bounding box has `min_x > max_x` or `min_y > max_y`
(its slot count equals the number of valid boxes, and each slot holds a
valid box at its original position); the MPA analyzer's build applies no
such exclusion and inserts every processed shape. -/
theorem c5_index_builds {G : Type} (boundsOf : G → Box) (shapes : List G) :
    (oilgasIndex boundsOf shapes).length =
      (shapes.filter (fun s => validBox (boundsOf s))).length ∧
    (∀ i b, (i, b) ∈ oilgasIndex boundsOf shapes ↔
      ∃ s, shapes.get? i = some s ∧ validBox (boundsOf s) = true ∧ b = boundsOf s) ∧
    (fishingIndex boundsOf shapes).length = shapes.length := by
  refine ⟨?_, ?_, ?_⟩
  · unfold oilgasIndex
    rw [List.length_map]
    exact length_filter_enumFrom (fun s => validBox (boundsOf s)) shapes 0
  · intro i b
    unfold oilgasIndex
    constructor
    · intro h
      obtain ⟨⟨j, s⟩, hmem, heq⟩ := List.mem_map.mp h
      obtain ⟨hmem2, hq⟩ := List.mem_filter.mp hmem
      obtain ⟨hji, hbs⟩ := Prod.mk.injEq _ _ _ _ ▸ heq
      obtain ⟨_, hget⟩ := mem_enumFrom.mp hmem2
      subst hji
      refine ⟨s, by simpa using hget, by simpa using hq, hbs.symm⟩
    · rintro ⟨s, hget, hvalid, rfl⟩
      refine List.mem_map.mpr ⟨(i, s), ?_, rfl⟩
      refine List.mem_filter.mpr ⟨mem_enumFrom.mpr ⟨Nat.zero_le i, by simpa using hget⟩, ?_⟩
      simpa using hvalid
  · unfold fishingIndex
    rw [List.length_map, length_enumFrom]

/-- Witness for C5 amended, at one degenerate and one valid box. -/
theorem c5_index_builds_witness :
    (oilgasIndex (fun b : Box => b) [⟨1, 1, 0, 0⟩, ⟨0, 0, 1, 1⟩]).length =
      (([⟨1, 1, 0, 0⟩, ⟨0, 0, 1, 1⟩] : List Box).filter (fun s => validBox s)).length ∧
    (∀ i b, (i, b) ∈ oilgasIndex (fun b : Box => b) [⟨1, 1, 0, 0⟩, ⟨0, 0, 1, 1⟩] ↔
      ∃ s, ([⟨1, 1, 0, 0⟩, ⟨0, 0, 1, 1⟩] : List Box).get? i = some s ∧
        validBox s = true ∧ b = s) ∧
    (fishingIndex (fun b : Box => b) [⟨1, 1, 0, 0⟩, ⟨0, 0, 1, 1⟩]).length =
      ([⟨1, 1, 0, 0⟩, ⟨0, 0, 1, 1⟩] : List Box).length :=
  c5_index_builds (fun b => b) [⟨1, 1, 0, 0⟩, ⟨0, 0, 1, 1⟩]

/-- The candidate distances the MPA scan computes for one sampled point:
one exact distance per returned slot id (every slot id returned by the
rtree is an inserted one, hence in range). -/
def candDists {G : Type} (dist : Pos → G → ℚ) (shapes : List G)
    (nearest : Pos → Nat → List Nat) (p : Pos) : List ℚ :=
  (nearest p 5).filterMap (fun k => (shapes.get? k).map (dist p))

/-- All `(distance, sampled point)` candidates over the sample, in the
order the nested loop of the source visits them. -/
def allCands {G : Type} (dist : Pos → G → ℚ) (shapes : List G)
    (nearest : Pos → Nat → List Nat) (sample : List Pos) : List (ℚ × Pos) :=
  sample.flatMap (fun p => (candDists dist shapes nearest p).map (fun d => (d, p)))

theorem lookupDists_ok {G : Type} (dist : Pos → G → ℚ) (shapes : List G) (p : Pos)
    (ks : List Nat) (hks : ∀ k ∈ ks, k < shapes.length) :
    lookupDists dist shapes p ks =
      Except.ok (ks.filterMap (fun k => (shapes.get? k).map (dist p))) := by
  induction ks with
  | nil => rfl
  | cons k rest ih =>
    have hk : k < shapes.length := hks k (List.mem_cons_self _ _)
    obtain ⟨s, hs⟩ : ∃ s, shapes.get? k = some s := by
      cases h : shapes.get? k with
      | some s => exact ⟨s, rfl⟩
      | none =>
        have := List.get?_eq_none.mp h
        omega
    have hs2 : shapes[k]? = some s := by
      rw [← List.get?_eq_getElem?]
      exact hs
    rw [lookupDists, hs, ih (fun x hx => hks x (List.mem_cons_of_mem _ hx))]
    simp [List.filterMap_cons, hs, hs2]

theorem innerFold_eq_stepMin (p : Pos) (ds : List ℚ) :
    ∀ acc : Option ℚ × Option Pos,
      ds.foldl (fun a d => if isLess d a.1 then (some d, some p) else a) acc =
        (ds.map (fun d => (d, p))).foldl stepMin acc := by
  induction ds with
  | nil => intro acc; rfl
  | cons d rest ih =>
    intro acc
    simp only [List.foldl_cons, List.map_cons]
    rw [ih]
    rfl

theorem mpaScan_ok {G : Type} (dist : Pos → G → ℚ) (shapes : List G)
    (nearest : Pos → Nat → List Nat) (sample : List Pos)
    (hval : ∀ p ∈ sample, ∀ k ∈ nearest p 5, k < shapes.length) :
    ∀ acc, mpaScan dist shapes nearest sample acc =
      Except.ok ((allCands dist shapes nearest sample).foldl stepMin acc) := by
  induction sample with
  | nil => intro acc; rfl
  | cons p rest ih =>
    intro acc
    rw [mpaScan, lookupDists_ok dist shapes p _ (hval p (List.mem_cons_self _ _))]
    dsimp only
    rw [innerFold_eq_stepMin,
      ih (fun q hq => hval q (List.mem_cons_of_mem _ hq))]
    have hsplit : allCands dist shapes nearest (p :: rest) =
        ((candDists dist shapes nearest p).map (fun d => (d, p))) ++
          allCands dist shapes nearest rest := rfl
    rw [hsplit, List.foldl_append]
    rfl

/-- Claim C6: In exhaustive-sample mode the MPA analyzer draws a
without-replacement sample of size `min(|events|, 500)` (a permutation of a
sublist of the event list), computes one exact distance per k=5 nearest
candidate of each sampled point, and returns the single global minimum over
all those candidates multiplied by 111.32, or no result exactly when the
sample or the index is empty.  The hypotheses state the rtree contract:
returned slot ids are inserted ones, and a non-empty index answers every
query. -/
theorem c6_mpa_proximity {G : Type} (dist : Pos → G → ℚ) (nearest : Pos → Nat → List Nat)
    (mpaGeoms : List (Option G)) (events : List Pos) (entropy : List Nat)
    (hval : ∀ p k, k ∈ nearest p 5 → k < (mpaShapes mpaGeoms).length)
    (hnon : mpaShapes mpaGeoms ≠ [] → ∀ p, nearest p 5 ≠ []) :
    (randomSample entropy events (min events.length ANALYSIS_SAMPLE_SIZE)).length =
        min events.length ANALYSIS_SAMPLE_SIZE ∧
    (randomSample entropy events (min events.length ANALYSIS_SAMPLE_SIZE)).Subperm events ∧
    (randomSample entropy events (min events.length ANALYSIS_SAMPLE_SIZE) = [] ↔
      events = []) ∧
    (allCands dist (mpaShapes mpaGeoms) nearest
        (randomSample entropy events (min events.length ANALYSIS_SAMPLE_SIZE)) = [] ↔
      events = [] ∨ mpaShapes mpaGeoms = []) ∧
    (analyze_mpa_proximity dist nearest mpaGeoms events entropy = Except.ok none ↔
      allCands dist (mpaShapes mpaGeoms) nearest
        (randomSample entropy events (min events.length ANALYSIS_SAMPLE_SIZE)) = []) ∧
    (allCands dist (mpaShapes mpaGeoms) nearest
        (randomSample entropy events (min events.length ANALYSIS_SAMPLE_SIZE)) ≠ [] →
      ∃ d p, analyze_mpa_proximity dist nearest mpaGeoms events entropy =
          Except.ok (some ⟨d * (111.32 : ℚ), p⟩) ∧
        d ∈ (allCands dist (mpaShapes mpaGeoms) nearest
          (randomSample entropy events (min events.length ANALYSIS_SAMPLE_SIZE))).map
            Prod.fst ∧
        ∀ x ∈ (allCands dist (mpaShapes mpaGeoms) nearest
          (randomSample entropy events (min events.length ANALYSIS_SAMPLE_SIZE))).map
            Prod.fst, d ≤ x) := by
  have hlen : (randomSample entropy events (min events.length ANALYSIS_SAMPLE_SIZE)).length =
      min events.length ANALYSIS_SAMPLE_SIZE := by
    rw [length_randomSample]
    omega
  have hsampnil : randomSample entropy events (min events.length ANALYSIS_SAMPLE_SIZE) = [] ↔
      events = [] := by
    rw [← List.length_eq_zero, hlen, ← @List.length_eq_zero Pos events]
    unfold ANALYSIS_SAMPLE_SIZE
    omega
  have hcandsnil : allCands dist (mpaShapes mpaGeoms) nearest
      (randomSample entropy events (min events.length ANALYSIS_SAMPLE_SIZE)) = [] ↔
      events = [] ∨ mpaShapes mpaGeoms = [] := by
    constructor
    · intro hc
      by_cases he : events = []
      · exact Or.inl he
      right
      by_contra hs
      obtain ⟨p, ps, hsamp⟩ : ∃ p ps,
          randomSample entropy events (min events.length ANALYSIS_SAMPLE_SIZE) = p :: ps := by
        cases hsx : randomSample entropy events (min events.length ANALYSIS_SAMPLE_SIZE) with
        | nil => exact absurd (hsampnil.mp hsx) he
        | cons p ps => exact ⟨p, ps, rfl⟩
      rw [hsamp] at hc
      unfold allCands at hc
      have hinner := List.flatMap_eq_nil_iff.mp hc p (List.mem_cons_self _ _)
      have hcd : candDists dist (mpaShapes mpaGeoms) nearest p = [] :=
        List.map_eq_nil_iff.mp hinner
      obtain ⟨k0, ks0, hk0⟩ : ∃ k0 ks0, nearest p 5 = k0 :: ks0 := by
        cases hn : nearest p 5 with
        | nil => exact absurd hn (hnon hs p)
        | cons k0 ks0 => exact ⟨k0, ks0, rfl⟩
      have hk0lt : k0 < (mpaShapes mpaGeoms).length :=
        hval p k0 (by rw [hk0]; exact List.mem_cons_self _ _)
      obtain ⟨s, hsget⟩ : ∃ s, (mpaShapes mpaGeoms).get? k0 = some s := by
        cases hg : (mpaShapes mpaGeoms).get? k0 with
        | some s => exact ⟨s, rfl⟩
        | none =>
          have := List.get?_eq_none.mp hg
          omega
      have : dist p s ∈ candDists dist (mpaShapes mpaGeoms) nearest p := by
        unfold candDists
        refine List.mem_filterMap.mpr ⟨k0, ?_, by rw [hsget]; rfl⟩
        rw [hk0]
        exact List.mem_cons_self _ _
      rw [hcd] at this
      simp at this
    · intro h
      rcases h with he | hs
      · rw [hsampnil.mpr he]
        rfl
      · refine List.flatMap_eq_nil_iff.mpr ?_
        intro p hp
        have : candDists dist (mpaShapes mpaGeoms) nearest p = [] := by
          unfold candDists
          rw [hs]
          simp
        rw [this]
        rfl
  refine ⟨hlen, randomSample_subperm _ entropy events, hsampnil, hcandsnil, ?_, ?_⟩
  · by_cases hB : (mpaGeoms.isEmpty || events.isEmpty) = true
    · have hana : analyze_mpa_proximity dist nearest mpaGeoms events entropy =
          Except.ok none := by
        unfold analyze_mpa_proximity
        rw [if_pos hB]
      rw [hana]
      refine iff_of_true rfl ?_
      rcases Bool.or_eq_true_iff.mp hB with h | h
      · exact hcandsnil.mpr (Or.inr (by rw [List.isEmpty_iff.mp h]; rfl))
      · exact hcandsnil.mpr (Or.inl (List.isEmpty_iff.mp h))
    · cases hsc : scanPairs (allCands dist (mpaShapes mpaGeoms) nearest
          (randomSample entropy events (min events.length ANALYSIS_SAMPLE_SIZE))) with
      | mk m c =>
        have hsc2 : List.foldl stepMin ((none, none) : Option ℚ × Option Pos)
            (allCands dist (mpaShapes mpaGeoms) nearest
              (randomSample entropy events (min events.length ANALYSIS_SAMPLE_SIZE))) =
            (m, c) := by
          rw [← hsc]
          rfl
        cases m with
        | none =>
          have hc : c = none := by
            have h1 := (scanPairs_minInv (allCands dist (mpaShapes mpaGeoms) nearest
              (randomSample entropy events (min events.length ANALYSIS_SAMPLE_SIZE)))).1
            rw [hsc] at h1
            exact (h1 rfl).2
          subst hc
          have hana : analyze_mpa_proximity dist nearest mpaGeoms events entropy =
              Except.ok none := by
            unfold analyze_mpa_proximity
            rw [if_neg hB]
            dsimp only
            rw [mpaScan_ok dist (mpaShapes mpaGeoms) nearest _
              (fun q _ k hk => hval q k hk), hsc2]
          rw [hana]
          refine iff_of_true rfl ?_
          rw [← scanPairs_fst_eq_none_iff (allCands dist (mpaShapes mpaGeoms)
            nearest (randomSample entropy events (min events.length ANALYSIS_SAMPLE_SIZE)))]
          rw [hsc]
        | some v =>
          have hc : ∃ b, c = some b := by
            have h1 := (scanPairs_minInv (allCands dist (mpaShapes mpaGeoms) nearest
              (randomSample entropy events (min events.length ANALYSIS_SAMPLE_SIZE)))).2 v
            rw [hsc] at h1
            obtain ⟨⟨b, hb⟩, _, _⟩ := h1 rfl
            exact ⟨b, hb⟩
          obtain ⟨b, rfl⟩ := hc
          have hana : analyze_mpa_proximity dist nearest mpaGeoms events entropy =
              Except.ok (some ⟨v * (111.32 : ℚ), b⟩) := by
            unfold analyze_mpa_proximity
            rw [if_neg hB]
            dsimp only
            rw [mpaScan_ok dist (mpaShapes mpaGeoms) nearest _
              (fun q _ k hk => hval q k hk), hsc2]
          rw [hana]
          have hne : allCands dist (mpaShapes mpaGeoms) nearest
              (randomSample entropy events (min events.length ANALYSIS_SAMPLE_SIZE)) ≠ [] := by
            intro h0
            have := (scanPairs_fst_eq_none_iff (allCands dist (mpaShapes mpaGeoms)
              nearest (randomSample entropy events
                (min events.length ANALYSIS_SAMPLE_SIZE)))).mpr h0
            rw [hsc] at this
            simp at this
          simp [hne]
  · intro hcne
    have hge : mpaGeoms ≠ [] := by
      intro h0
      refine hcne (hcandsnil.mpr (Or.inr ?_))
      rw [h0]
      rfl
    have hev : events ≠ [] := by
      intro h0
      exact hcne (hcandsnil.mpr (Or.inl h0))
    have hB : (mpaGeoms.isEmpty || events.isEmpty) = false := by
      have h1 : mpaGeoms.isEmpty = false := by
        cases mpaGeoms with
        | nil => exact absurd rfl hge
        | cons a as => rfl
      have h2 : events.isEmpty = false := by
        cases events with
        | nil => exact absurd rfl hev
        | cons a as => rfl
      rw [h1, h2]
      rfl
    obtain ⟨v, b, hscan, hmem, hmin⟩ := scanPairs_of_ne_nil hcne
    have hsc2 : List.foldl stepMin ((none, none) : Option ℚ × Option Pos)
        (allCands dist (mpaShapes mpaGeoms) nearest
          (randomSample entropy events (min events.length ANALYSIS_SAMPLE_SIZE))) =
        (some v, some b) := by
      rw [← hscan]
      rfl
    refine ⟨v, b, ?_, hmem, hmin⟩
    unfold analyze_mpa_proximity
    rw [if_neg (by rw [hB]; simp)]
    dsimp only
    rw [mpaScan_ok dist (mpaShapes mpaGeoms) nearest _ (fun q _ k hk => hval q k hk), hsc2]

/-- The candidate pairs the coral scan visits, in loop order: for a
returned slot id `k`, the shape `valid_shapes_for_index[k]` whose distance
is measured, paired with the attributed record `coral_features[k]` — both
indexed with the same pre-compaction slot id, exactly as the source does. -/
def coralCands {G : Type} (dist : G → G → ℚ) (features : List (OGFeature G))
    (validList : List G) (platform : G) (ks : List Nat) : List (ℚ × OGFeature G) :=
  ks.filterMap (fun k => (validList.get? k).bind
    (fun s => (features.get? k).map (fun f => (dist platform s, f))))

theorem coralScan_ok {G : Type} (dist : G → G → ℚ) (features : List (OGFeature G))
    (validList : List G) (platform : G) (ks : List Nat)
    (hks : ∀ k ∈ ks, k < validList.length ∧ k < features.length) :
    ∀ acc, coralScan dist features validList platform ks acc =
      Except.ok ((coralCands dist features validList platform ks).foldl stepMin acc) := by
  induction ks with
  | nil => intro acc; rfl
  | cons k rest ih =>
    intro acc
    obtain ⟨hk1, hk2⟩ := hks k (List.mem_cons_self _ _)
    obtain ⟨s, hs⟩ : ∃ s, validList.get? k = some s := by
      cases hg : validList.get? k with
      | some s => exact ⟨s, rfl⟩
      | none =>
        have := List.get?_eq_none.mp hg
        omega
    obtain ⟨f, hf⟩ : ∃ f, features.get? k = some f := by
      cases hg : features.get? k with
      | some f => exact ⟨f, rfl⟩
      | none =>
        have := List.get?_eq_none.mp hg
        omega
    have hrest : ∀ x ∈ rest, x < validList.length ∧ x < features.length :=
      fun x hx => hks x (List.mem_cons_of_mem _ hx)
    have hs2 : validList[k]? = some s := by
      rw [← List.get?_eq_getElem?]
      exact hs
    have hf2 : features[k]? = some f := by
      rw [← List.get?_eq_getElem?]
      exact hf
    have hcons : coralCands dist features validList platform (k :: rest) =
        (dist platform s, f) :: coralCands dist features validList platform rest := by
      unfold coralCands
      rw [List.filterMap_cons, hs]
      simp [hf2]
    rw [coralScan, hs]
    dsimp only
    by_cases hless : isLess (dist platform s) acc.1 = true
    · rw [if_pos hless, hf]
      dsimp only
      rw [ih hrest, hcons, List.foldl_cons]
      have hstep : stepMin acc (dist platform s, f) = (some (dist platform s), some f) := by
        unfold stepMin
        rw [if_pos hless]
      rw [hstep]
    · rw [if_neg hless, ih hrest, hcons, List.foldl_cons]
      have hstep : stepMin acc (dist platform s, f) = acc := by
        unfold stepMin
        rw [if_neg hless]
      rw [hstep]

/-- Claim C4, amended: The coral proximity analyzer makes exactly one random
draw (no retry loop, no attempt budget): it picks one platform, queries its
k=5 nearest candidates once, and accepts the minimum distance over those
candidates unconditionally — no notability threshold is compared against —
returning "no result" only when the query yields no candidate at all. -/
theorem c4_single_draw {G : Type} (boundsOf : G → Box) (dist : G → G → ℚ)
    (nearest : Box → Nat → List Nat) (p0 : G) (ps : List G)
    (features : List (OGFeature G)) (entropy : Nat) (hf : features ≠ [])
    (hks : ∀ k ∈ nearest (boundsOf ((p0 :: ps).getD (entropy % (p0 :: ps).length) p0)) 5,
      k < (validShapesForIndex boundsOf (coralShapes features)).length ∧
        k < features.length) :
    (coralCands dist features (validShapesForIndex boundsOf (coralShapes features))
        ((p0 :: ps).getD (entropy % (p0 :: ps).length) p0)
        (nearest (boundsOf ((p0 :: ps).getD (entropy % (p0 :: ps).length) p0)) 5) = [] →
      analyze_coral_proximity boundsOf dist nearest (p0 :: ps) features entropy =
        Except.ok none) ∧
    (coralCands dist features (validShapesForIndex boundsOf (coralShapes features))
        ((p0 :: ps).getD (entropy % (p0 :: ps).length) p0)
        (nearest (boundsOf ((p0 :: ps).getD (entropy % (p0 :: ps).length) p0)) 5) ≠ [] →
      ∃ (d : ℚ) (f : OGFeature G),
        analyze_coral_proximity boundsOf dist nearest (p0 :: ps) features entropy =
          Except.ok (some ⟨(f.ecoregion).getD ("a sensitive marine area"),
            d * (111.32 : ℚ)⟩) ∧
        d ∈ (coralCands dist features (validShapesForIndex boundsOf (coralShapes features))
          ((p0 :: ps).getD (entropy % (p0 :: ps).length) p0)
          (nearest (boundsOf ((p0 :: ps).getD (entropy % (p0 :: ps).length) p0)) 5)).map
            Prod.fst ∧
        ∀ x ∈ (coralCands dist features (validShapesForIndex boundsOf
          (coralShapes features)) ((p0 :: ps).getD (entropy % (p0 :: ps).length) p0)
          (nearest (boundsOf ((p0 :: ps).getD (entropy % (p0 :: ps).length) p0)) 5)).map
            Prod.fst, d ≤ x) := by
  match features, hf with
  | f0 :: fs, _ =>
    have hana0 : analyze_coral_proximity boundsOf dist nearest (p0 :: ps) (f0 :: fs) entropy =
        match coralScan dist (f0 :: fs)
            (validShapesForIndex boundsOf (coralShapes (f0 :: fs)))
            ((p0 :: ps).getD (entropy % (p0 :: ps).length) p0)
            (nearest (boundsOf ((p0 :: ps).getD (entropy % (p0 :: ps).length) p0)) 5)
            (none, none) with
        | Except.error e => Except.error e
        | Except.ok (some d, some f) =>
          Except.ok (some ⟨(OGFeature.ecoregion f).getD ("a sensitive marine area"),
            d * (111.32 : ℚ)⟩)
        | Except.ok _ => Except.ok none := rfl
    constructor
    · intro hnil
      rw [hana0, coralScan_ok dist (f0 :: fs) _ _ _ hks, hnil]
      rfl
    · intro hne
      obtain ⟨v, b, hscan, hmem, hmin⟩ := scanPairs_of_ne_nil hne
      refine ⟨v, b, ?_, hmem, hmin⟩
      rw [hana0, coralScan_ok dist (f0 :: fs) _ _ _ hks]
      have hsc2 : List.foldl stepMin ((none, none) :
          Option ℚ × Option (OGFeature G))
          (coralCands dist (f0 :: fs)
            (validShapesForIndex boundsOf (coralShapes (f0 :: fs)))
            ((p0 :: ps).getD (entropy % (p0 :: ps).length) p0)
            (nearest (boundsOf ((p0 :: ps).getD (entropy % (p0 :: ps).length) p0)) 5)) =
          (some v, some b) := by
        rw [← hscan]
        rfl
      rw [hsc2]

/-- A degenerate point-box at `(x, 0)`: the bounds of a point geometry. -/
def cPt (x : ℚ) : Box := ⟨x, 0, x, 0⟩

/-- Distance between two point geometries represented by their degenerate
boxes.  For the points used below, which lie on one horizontal line, this
equals shapely's exact Euclidean distance. -/
def oDist (a b : Box) : ℚ := |a.minX - b.minX| + |a.minY - b.minY|

/-- Claim C4, counterexample: With a single platform whose nearest coral reef
is 2226.4 km away — far beyond the claimed 200 km notability threshold —
the analyzer still returns a story: there is no threshold check and no
retry budget in the source, so the claimed "no result after 20 attempts"
outcome never occurs. -/
theorem c4_counterexample :
    analyze_coral_proximity (fun b : Box => b) oDist (fun _ _ => [0])
        [cPt 0] [⟨some (cPt 20), some ("R")⟩] 0 =
      Except.ok (some ⟨("R"), (2226.4 : ℚ)⟩) ∧
    (200 : ℚ) < (2226.4 : ℚ) := by
  constructor
  · have hd : oDist (cPt 0) (cPt 20) = 20 := by
      unfold oDist cPt
      norm_num
    have hana : analyze_coral_proximity (fun b : Box => b) oDist (fun _ _ => [0])
        [cPt 0] [⟨some (cPt 20), some ("R")⟩] 0 =
        Except.ok (some ⟨("R"), oDist (cPt 0) (cPt 20) * (111.32 : ℚ)⟩) := rfl
    rw [hana, hd]
    norm_num
  · norm_num

/-- Witness for C4 amended at the same single-platform instance. -/
theorem c4_single_draw_witness :
    (coralCands oDist [⟨some (cPt 20), some ("R")⟩]
        (validShapesForIndex (fun b : Box => b)
          (coralShapes [⟨some (cPt 20), some ("R")⟩]))
        (([cPt 0] : List Box).getD (0 % ([cPt 0] : List Box).length) (cPt 0))
        ((fun _ _ => [0]) ((fun b : Box => b)
          (([cPt 0] : List Box).getD (0 % ([cPt 0] : List Box).length) (cPt 0))) 5) = [] →
      analyze_coral_proximity (fun b : Box => b) oDist (fun _ _ => [0])
        [cPt 0] [⟨some (cPt 20), some ("R")⟩] 0 = Except.ok none) ∧
    (coralCands oDist [⟨some (cPt 20), some ("R")⟩]
        (validShapesForIndex (fun b : Box => b)
          (coralShapes [⟨some (cPt 20), some ("R")⟩]))
        (([cPt 0] : List Box).getD (0 % ([cPt 0] : List Box).length) (cPt 0))
        ((fun _ _ => [0]) ((fun b : Box => b)
          (([cPt 0] : List Box).getD (0 % ([cPt 0] : List Box).length) (cPt 0))) 5) ≠ [] →
      ∃ (d : ℚ) (f : OGFeature Box),
        analyze_coral_proximity (fun b : Box => b) oDist (fun _ _ => [0])
          [cPt 0] [⟨some (cPt 20), some ("R")⟩] 0 =
          Except.ok (some ⟨(f.ecoregion).getD ("a sensitive marine area"),
            d * (111.32 : ℚ)⟩) ∧
        d ∈ (coralCands oDist [⟨some (cPt 20), some ("R")⟩]
          (validShapesForIndex (fun b : Box => b)
            (coralShapes [⟨some (cPt 20), some ("R")⟩]))
          (([cPt 0] : List Box).getD (0 % ([cPt 0] : List Box).length) (cPt 0))
          ((fun _ _ => [0]) ((fun b : Box => b)
            (([cPt 0] : List Box).getD (0 % ([cPt 0] : List Box).length) (cPt 0))) 5)).map
              Prod.fst ∧
        ∀ x ∈ (coralCands oDist [⟨some (cPt 20), some ("R")⟩]
          (validShapesForIndex (fun b : Box => b)
            (coralShapes [⟨some (cPt 20), some ("R")⟩]))
          (([cPt 0] : List Box).getD (0 % ([cPt 0] : List Box).length) (cPt 0))
          ((fun _ _ => [0]) ((fun b : Box => b)
            (([cPt 0] : List Box).getD (0 % ([cPt 0] : List Box).length) (cPt 0))) 5)).map
              Prod.fst, d ≤ x) :=
  c4_single_draw (fun b : Box => b) oDist (fun _ _ => [0]) (cPt 0) []
    [⟨some (cPt 20), some ("R")⟩] 0 (by simp)
    (by
      intro k hk
      simp only [List.mem_singleton] at hk
      subst hk
      have hv : validBox (cPt 20) = true := by
        unfold validBox cPt
        norm_num
      constructor
      · unfold validShapesForIndex coralShapes
        simp [hv]
      · simp)

/-- The C1 failing input: seven coral features, the first with a degenerate
bounding box (`min_x > max_x`), the rest point geometries at longitudes
10 to 60; the platform sits at the origin. -/
def c1Features : List (OGFeature Box) :=
  [⟨some ⟨1, 1, 0, 0⟩, some ("R0")⟩, ⟨some (cPt 10), some ("R1")⟩,
   ⟨some (cPt 20), some ("R2")⟩, ⟨some (cPt 30), some ("R3")⟩,
   ⟨some (cPt 40), some ("R4")⟩, ⟨some (cPt 50), some ("R5")⟩,
   ⟨some (cPt 60), some ("R6")⟩]

/-- Claim C1, code bug: The index holds the pre-compaction slot ids 1..6 (the
degenerate shape 0 was excluded), and the rtree answer `[1, 2, 3, 4, 5]`
for the platform's 5-nearest query makes the scan measure slot 1's distance
against `valid_shapes_for_index[1]` — the point at longitude 20, which is
feature 2's geometry — yet attribute the result to `coral_features[1]`,
whose own geometry lies at distance 10, not the reported 20.  The record
attributed to the measured distance is not the record whose geometry
produced it. -/
theorem c1_slot_misattribution :
    validShapesForIndex (fun b : Box => b) (coralShapes c1Features) =
      [cPt 10, cPt 20, cPt 30, cPt 40, cPt 50, cPt 60] ∧
    (oilgasIndex (fun b : Box => b) (coralShapes c1Features)).map Prod.fst =
      [1, 2, 3, 4, 5, 6] ∧
    coralScan oDist c1Features
        (validShapesForIndex (fun b : Box => b) (coralShapes c1Features))
        (cPt 0) [1, 2, 3, 4, 5] (none, none) =
      Except.ok (some (20 : ℚ), some ⟨some (cPt 10), some ("R1")⟩) ∧
    oDist (cPt 0) (cPt 10) = 10 ∧
    oDist (cPt 0) (cPt 20) = 20 ∧
    ((10 : ℚ) ≠ (20 : ℚ)) := by
  have hvd : validBox ⟨1, 1, 0, 0⟩ = false := by
    have h1 : ¬ ((1 : ℚ) ≤ 0) := by norm_num
    simp [validBox, h1]
  have hvp : ∀ x : ℚ, validBox (cPt x) = true := by
    intro x
    simp [validBox, cPt]
  have hvl : validShapesForIndex (fun b : Box => b) (coralShapes c1Features) =
      [cPt 10, cPt 20, cPt 30, cPt 40, cPt 50, cPt 60] := by
    unfold validShapesForIndex coralShapes c1Features
    simp [List.filter_cons, hvd, hvp]
  refine ⟨hvl, ?_, ?_, by unfold oDist cPt; norm_num, by unfold oDist cPt; norm_num,
    by norm_num⟩
  · unfold oilgasIndex coralShapes c1Features
    simp [List.filter_cons, hvd, hvp]
  · have hks : ∀ k ∈ [1, 2, 3, 4, 5], k <
        (validShapesForIndex (fun b : Box => b) (coralShapes c1Features)).length ∧
        k < c1Features.length := by
      intro k hk
      rw [hvl]
      unfold c1Features
      fin_cases hk <;> simp
    rw [coralScan_ok oDist c1Features _ _ _ hks]
    have hcands : coralCands oDist c1Features
        (validShapesForIndex (fun b : Box => b) (coralShapes c1Features))
        (cPt 0) [1, 2, 3, 4, 5] =
        [(20, ⟨some (cPt 10), some ("R1")⟩), (30, ⟨some (cPt 20), some ("R2")⟩),
         (40, ⟨some (cPt 30), some ("R3")⟩), (50, ⟨some (cPt 40), some ("R4")⟩),
         (60, ⟨some (cPt 50), some ("R5")⟩)] := by
      rw [hvl]
      unfold coralCands c1Features
      simp [oDist, cPt]
    rw [hcands]
    have h1 : ¬ ((30 : ℚ) < 20) := by norm_num
    have h2 : ¬ ((40 : ℚ) < 20) := by norm_num
    have h3 : ¬ ((50 : ℚ) < 20) := by norm_num
    have h4 : ¬ ((60 : ℚ) < 20) := by norm_num
    simp [stepMin, isLess, h1, h2, h3, h4]

/-- Concrete distance used by the C6 witness (the exact distance between a
point and a degenerate point-box on the plane, in the L1 form, playing the
role of the opaque shapely metric). -/
def wDist (p : Pos) (b : Box) : ℚ := |p.lon - b.minX| + |p.lat - b.minY|

/-- Concrete one-slot nearest oracle used by the C6 witness. -/
def wNearest (_ : Pos) (_ : Nat) : List Nat := [0]

/-- Witness for C6 at a one-geometry index and a one-event dataset. -/
theorem c6_mpa_proximity_witness :
    (randomSample [0] ([⟨0, 0⟩] : List Pos)
        (min ([⟨0, 0⟩] : List Pos).length ANALYSIS_SAMPLE_SIZE)).length =
        min ([⟨0, 0⟩] : List Pos).length ANALYSIS_SAMPLE_SIZE ∧
    (randomSample [0] ([⟨0, 0⟩] : List Pos)
        (min ([⟨0, 0⟩] : List Pos).length ANALYSIS_SAMPLE_SIZE)).Subperm ([⟨0, 0⟩] : List Pos) ∧
    (randomSample [0] ([⟨0, 0⟩] : List Pos)
        (min ([⟨0, 0⟩] : List Pos).length ANALYSIS_SAMPLE_SIZE) = [] ↔
      ([⟨0, 0⟩] : List Pos) = []) ∧
    (allCands wDist (mpaShapes ([some ⟨1, 0, 1, 0⟩] : List (Option Box))) wNearest
        (randomSample [0] ([⟨0, 0⟩] : List Pos)
          (min ([⟨0, 0⟩] : List Pos).length ANALYSIS_SAMPLE_SIZE)) = [] ↔
      ([⟨0, 0⟩] : List Pos) = [] ∨ mpaShapes ([some ⟨1, 0, 1, 0⟩] : List (Option Box)) = []) ∧
    (analyze_mpa_proximity wDist wNearest [some ⟨1, 0, 1, 0⟩] ([⟨0, 0⟩] : List Pos) [0] =
        Except.ok none ↔
      allCands wDist (mpaShapes ([some ⟨1, 0, 1, 0⟩] : List (Option Box))) wNearest
        (randomSample [0] ([⟨0, 0⟩] : List Pos)
          (min ([⟨0, 0⟩] : List Pos).length ANALYSIS_SAMPLE_SIZE)) = []) ∧
    (allCands wDist (mpaShapes ([some ⟨1, 0, 1, 0⟩] : List (Option Box))) wNearest
        (randomSample [0] ([⟨0, 0⟩] : List Pos)
          (min ([⟨0, 0⟩] : List Pos).length ANALYSIS_SAMPLE_SIZE)) ≠ [] →
      ∃ d p, analyze_mpa_proximity wDist wNearest [some ⟨1, 0, 1, 0⟩] ([⟨0, 0⟩] : List Pos) [0] =
          Except.ok (some ⟨d * (111.32 : ℚ), p⟩) ∧
        d ∈ (allCands wDist (mpaShapes ([some ⟨1, 0, 1, 0⟩] : List (Option Box))) wNearest
          (randomSample [0] ([⟨0, 0⟩] : List Pos)
            (min ([⟨0, 0⟩] : List Pos).length ANALYSIS_SAMPLE_SIZE))).map Prod.fst ∧
        ∀ x ∈ (allCands wDist (mpaShapes ([some ⟨1, 0, 1, 0⟩] : List (Option Box))) wNearest
          (randomSample [0] ([⟨0, 0⟩] : List Pos)
            (min ([⟨0, 0⟩] : List Pos).length ANALYSIS_SAMPLE_SIZE))).map Prod.fst,
          d ≤ x) :=
  c6_mpa_proximity wDist wNearest [some ⟨1, 0, 1, 0⟩] ([⟨0, 0⟩] : List Pos) [0]
    (by
      intro p k hk
      simp [wNearest] at hk
      subst hk
      simp [mpaShapes])
    (by
      intro _ p
      simp [wNearest])

/-- Witness for C10 at two events in the same cell plus one in another. -/
theorem c10_hotspot_nonempty_witness :
    ∃ st, analyze_global_hotspot [⟨1, 1⟩, ⟨2, 2⟩, ⟨11, 1⟩] = some st ∧
      1 ≤ st.event_count ∧
      (∀ c : Int × Int,
        tally (([⟨1, 1⟩, ⟨2, 2⟩, ⟨11, 1⟩] : List Pos).map cellOf) c ≤ st.event_count) ∧
      sumCounts (gridOf [⟨1, 1⟩, ⟨2, 2⟩, ⟨11, 1⟩]) =
        ([⟨1, 1⟩, ⟨2, 2⟩, ⟨11, 1⟩] : List Pos).length :=
  c10_hotspot_nonempty [⟨1, 1⟩, ⟨2, 2⟩, ⟨11, 1⟩] (by simp)

end Oceanist
